import Mathlib

/-!
Verification of the algorithmic core of `MHN.py` (class `MasterHighwayNetwork`):

* `find_shortest_path` — Dijkstra's algorithm over an adjacency-dict graph;
* `calculate_itin_measures` — linear-referencing measures for transit itineraries;
* `validate_itin_times` — departure/arrival time repair for transit itineraries;
* `is_tipid` / `tipid_from_int` / `tipid_to_int` — TIPID formatting and parsing.

Python data is modelled as follows: numbers (floats and ints used in arithmetic)
become exact rationals `ℚ`; node, route, and link identifiers become `ℕ`;
dictionaries become association lists or `ℕ → Option _` maps; raised exceptions
become `Except` error values; strings become `List Char`.  The two itinerary
routines read their rows through an ArcGIS cursor sorted by
`(TRANSIT_LINE, ITIN_ORDER)`; they are modelled as functions on the list of rows
in that processed order, with the link-length dictionary `abb_miles_dict`
(built externally by `make_attribute_dict` from the `hwynet_arc` table) supplied
as a `ℕ → Option ℚ` parameter.
-/

namespace MHN

/-- Python 2 `round(x)`: round half away from zero, as an integer
(`int(round(x))` in the source truncates the resulting whole float, which is
the same integer). -/
def pyRound (q : ℚ) : ℤ := if 0 ≤ q then ⌊q + 1 / 2⌋ else -⌊-q + 1 / 2⌋

/-- Python 2 `round(x, 1)`: round half away from zero at one decimal place. -/
def pyRound1 (q : ℚ) : ℚ := (pyRound (q * 10) : ℚ) / 10

/-! ### Dijkstra: `find_shortest_path` (MHN.py lines 472-499)

The graph dictionary `{node: {nbr: cost}}` is modelled as an association list;
Python dict keys are unique, which the theorems assume via `WFGraph`.
The `heapq` priority queue holds `(cost, node, path)` tuples and pops the
lexicographically least one; it is modelled as a list from which `popMin`
removes the least entry under the same lexicographic order. -/

/-- A heap entry `(p_cost, node, path)` as pushed by `find_shortest_path`. -/
structure Entry where
  cost : ℚ
  node : ℕ
  path : List ℕ
deriving DecidableEq

/-- Python's lexicographic comparison on the tuples `(cost, node, path)`
(list comparison on the path component is itself lexicographic). -/
def entryLE (a b : Entry) : Bool :=
  a.cost < b.cost ||
    (a.cost == b.cost && (a.node < b.node || (a.node == b.node && decide (a.path ≤ b.path))))

/-- Least entry of `a :: l` under `entryLE` (leftmost among ties). -/
def minEntry (a : Entry) : List Entry → Entry
  | [] => a
  | x :: xs => if entryLE a x then minEntry a xs else minEntry x xs

/-- `heapq.heappop`: remove and return the least entry; `none` models the
`IndexError` raised on an empty heap. -/
def popMin (l : List Entry) : Option (Entry × List Entry) :=
  match l with
  | [] => none
  | e :: es =>
    let m := minEntry e es
    some (m, (e :: es).erase m)

/-- The adjacency-dict graph `{node: {nbr: cost}}`. -/
abbrev Graph := List (ℕ × List (ℕ × ℚ))

/-- All node identifiers mentioned by the graph (keys and neighbour keys);
used only for the termination measure of the search loop. -/
def nodeUniv (g : Graph) : List ℕ :=
  g.map Prod.fst ++ g.flatMap (fun p => p.2.map Prod.fst)

/-- Total number of adjacency entries; used only for the termination measure. -/
def edgeBound (g : Graph) : ℕ := (g.map (fun p => p.2.length)).sum

/-- The error outcome of the search: `heappop` on an exhausted queue raises
`IndexError` in the source. -/
inductive SPErr where
  | queueExhausted
deriving DecidableEq

/-- The `while True` loop of `find_shortest_path`.  The graph is threaded
through unchanged — the loop body only reads `graph` — and returned alongside
the result so that the no-mutation guarantee is part of the model. -/
def dijkstraLoop (g : Graph) (e : ℕ) (queue : List Entry) (seen : List ℕ) :
    Except SPErr (ℚ × List ℕ) × Graph :=
  match hq : popMin queue with
  | none => (.error .queueExhausted, g)
  | some (ent, rest) =>
    if hs : ent.node ∈ seen then
      dijkstraLoop g e rest seen
    else
      if ent.node = e then (.ok (ent.cost, ent.path ++ [ent.node]), g)
      else
        match hl : List.lookup ent.node g with
        | none => dijkstraLoop g e rest (ent.node :: seen)
        | some nbrs =>
          dijkstraLoop g e
            (rest ++ nbrs.map (fun bc => ⟨ent.cost + bc.2, bc.1, ent.path ++ [ent.node]⟩))
            (ent.node :: seen)
termination_by ((nodeUniv g).filter (fun x => x ∉ seen)).length * (1 + edgeBound g) + queue.length
decreasing_by
  · have hql : rest.length + 1 = queue.length := by
      have hme : ∀ (a : Entry) (l : List Entry), minEntry a l ∈ a :: l := by
        intro a l
        induction l generalizing a with
        | nil => simp [minEntry]
        | cons x xs ih =>
          simp only [minEntry]
          split
          · have := ih a
            simp only [List.mem_cons] at this ⊢
            tauto
          · have := ih x
            simp only [List.mem_cons] at this ⊢
            tauto
      cases queue with
      | nil => simp [popMin] at hq
      | cons h t =>
        simp only [popMin, Option.some.injEq, Prod.mk.injEq] at hq
        obtain ⟨h1, h2⟩ := hq
        subst h2
        rw [List.length_erase_of_mem (hme h t)]
        simp
    linarith
  · have hql : rest.length + 1 = queue.length := by
      have hme : ∀ (a : Entry) (l : List Entry), minEntry a l ∈ a :: l := by
        intro a l
        induction l generalizing a with
        | nil => simp [minEntry]
        | cons x xs ih =>
          simp only [minEntry]
          split
          · have := ih a
            simp only [List.mem_cons] at this ⊢
            tauto
          · have := ih x
            simp only [List.mem_cons] at this ⊢
            tauto
      cases queue with
      | nil => simp [popMin] at hq
      | cons h t =>
        simp only [popMin, Option.some.injEq, Prod.mk.injEq] at hq
        obtain ⟨h1, h2⟩ := hq
        subst h2
        rw [List.length_erase_of_mem (hme h t)]
        simp
    have hle : (List.filter (fun x => decide (x ∉ ent.node :: seen)) (nodeUniv g)).length ≤
        (List.filter (fun x => decide (x ∉ seen)) (nodeUniv g)).length := by
      apply List.Sublist.length_le
      apply List.monotone_filter_right
      intro a ha
      simp only [decide_eq_true_eq, List.mem_cons] at ha ⊢
      tauto
    have hmul := Nat.mul_le_mul_right (1 + edgeBound g) hle
    linarith
  · have hql : rest.length + 1 = queue.length := by
      have hme : ∀ (a : Entry) (l : List Entry), minEntry a l ∈ a :: l := by
        intro a l
        induction l generalizing a with
        | nil => simp [minEntry]
        | cons x xs ih =>
          simp only [minEntry]
          split
          · have := ih a
            simp only [List.mem_cons] at this ⊢
            tauto
          · have := ih x
            simp only [List.mem_cons] at this ⊢
            tauto
      cases queue with
      | nil => simp [popMin] at hq
      | cons h t =>
        simp only [popMin, Option.some.injEq, Prod.mk.injEq] at hq
        obtain ⟨h1, h2⟩ := hq
        subst h2
        rw [List.length_erase_of_mem (hme h t)]
        simp
    have hmem : (ent.node, nbrs) ∈ g := by
      clear hql hq
      induction g with
      | nil => simp [List.lookup] at hl
      | cons p ps ih =>
        obtain ⟨k, v⟩ := p
        rw [List.lookup_cons] at hl
        by_cases hak : ent.node = k
        · subst hak
          simp at hl
          subst hl
          exact List.mem_cons_self _ _
        · have hbf : (ent.node == k) = false := beq_false_of_ne hak
          rw [hbf] at hl
          exact List.mem_cons_of_mem _ (ih hl)
    have hkey : ent.node ∈ nodeUniv g := by
      apply List.mem_append_left
      exact List.mem_map.2 ⟨(ent.node, nbrs), hmem, rfl⟩
    have hpush : nbrs.length ≤ edgeBound g := by
      have hm2 : nbrs.length ∈ g.map (fun p => p.2.length) :=
        List.mem_map.2 ⟨(ent.node, nbrs), hmem, rfl⟩
      exact List.single_le_sum (fun x _ => Nat.zero_le x) _ hm2
    have hstrict : (List.filter (fun x => decide (x ∉ ent.node :: seen)) (nodeUniv g)).length <
        (List.filter (fun x => decide (x ∉ seen)) (nodeUniv g)).length := by
      have hsub : List.Sublist (List.filter (fun x => decide (x ∉ ent.node :: seen)) (nodeUniv g))
          (List.filter (fun x => decide (x ∉ seen)) (nodeUniv g)) := by
        apply List.monotone_filter_right
        intro a ha
        simp only [decide_eq_true_eq, List.mem_cons] at ha ⊢
        tauto
      apply Nat.lt_of_le_of_ne hsub.length_le
      intro heq
      have hEq := hsub.eq_of_length heq
      have hin : ent.node ∈ List.filter (fun x => decide (x ∉ seen)) (nodeUniv g) :=
        List.mem_filter.2 ⟨hkey, by simpa using hs⟩
      rw [← hEq] at hin
      have := List.mem_filter.1 hin
      simp at this
    have hmul : (List.filter (fun x => decide (x ∉ ent.node :: seen)) (nodeUniv g)).length
        * (1 + edgeBound g) + (1 + edgeBound g) ≤
        (List.filter (fun x => decide (x ∉ seen)) (nodeUniv g)).length * (1 + edgeBound g) := by
      have h2 := Nat.mul_le_mul_right (1 + edgeBound g) (Nat.succ_le_of_lt hstrict)
      have h3 : ((List.filter (fun x => decide (x ∉ ent.node :: seen)) (nodeUniv g)).length + 1)
          * (1 + edgeBound g)
          = (List.filter (fun x => decide (x ∉ ent.node :: seen)) (nodeUniv g)).length
            * (1 + edgeBound g) + (1 + edgeBound g) := by ring
      linarith
    rw [List.length_append, List.length_map]
    linarith

/-- `find_shortest_path(graph, start, end)`: initial queue `[(0, start, [])]`,
empty `seen` set.  The second component of the result is the graph as left
behind by the call. -/
def find_shortest_path (g : Graph) (s e : ℕ) : Except SPErr (ℚ × List ℕ) × Graph :=
  dijkstraLoop g e [⟨0, s, []⟩] []

/-- Cost of the directed edge `a → b` in the graph dictionary
(`graph[a][b]`), if present. -/
def edgeCost (g : Graph) (a b : ℕ) : Option ℚ :=
  match List.lookup a g with
  | none => none
  | some nbrs => List.lookup b nbrs

/-- Total cost of a node sequence: `some` of the sum of the traversed edge
costs when every consecutive pair is connected, `none` otherwise (and for the
empty sequence). -/
def pathCost (g : Graph) : List ℕ → Option ℚ
  | [] => none
  | [_] => some 0
  | a :: b :: rest =>
    match edgeCost g a b, pathCost g (b :: rest) with
    | some c, some c2 => some (c + c2)
    | _, _ => none

/-- `p` is a path from `s` to `t` in `g` with total edge cost `c`: it starts at
`s`, ends at `t`, consecutive nodes are connected, and the edge costs sum
to `c`. -/
def ValidPath (g : Graph) (s t : ℕ) (p : List ℕ) (c : ℚ) : Prop :=
  p.head? = some s ∧ p.getLast? = some t ∧ pathCost g p = some c

/-- `t` is reachable from `s` in `g`. -/
def Reachable (g : Graph) (s t : ℕ) : Prop := ∃ p c, ValidPath g s t p c

/-- Well-formedness inherited from Python dicts: outer keys and each inner
neighbour dict's keys are duplicate-free. -/
def WFGraph (g : Graph) : Prop :=
  (g.map Prod.fst).Nodup ∧ ∀ p ∈ g, (p.2.map Prod.fst).Nodup

/-- All edge costs of the graph are non-negative. -/
def NonnegGraph (g : Graph) : Prop := ∀ p ∈ g, ∀ bc ∈ p.2, (0 : ℚ) ≤ bc.2

/-- Pointwise update of a ghost cost map. -/
def updF (D : ℕ → ℚ) (n : ℕ) (c : ℚ) : ℕ → ℚ := fun x => if x = n then c else D x

/-- Dijkstra loop invariant, with a ghost map `D` of finalised costs for the
`seen` nodes.  `s` is the start node of the search. -/
structure InvD (g : Graph) (s : ℕ) (queue : List Entry) (seen : List ℕ) (D : ℕ → ℚ) : Prop where
  opt : ∀ v ∈ seen, ∀ p c, ValidPath g s v p c → D v ≤ c
  relaxed : ∀ v ∈ seen, ∀ nbrs, List.lookup v g = some nbrs →
    ∀ bc ∈ nbrs, (bc.1 ∈ seen ∧ D bc.1 ≤ D v + bc.2) ∨
      ∃ ent ∈ queue, ent.node = bc.1 ∧ ent.cost ≤ D v + bc.2
  soundQ : ∀ ent ∈ queue, ValidPath g s ent.node (ent.path ++ [ent.node]) ent.cost
  startOk : s ∈ seen ∨ ∃ ent ∈ queue, ent.node = s ∧ ent.cost ≤ 0
  seenLeQ : ∀ ent ∈ queue, ent.node ∈ seen → D ent.node ≤ ent.cost
  allSeenLe : ∀ v ∈ seen, ∀ ent ∈ queue, D v ≤ ent.cost

/-- The loop invariant with the ghost map quantified away. -/
def Inv (g : Graph) (s : ℕ) (queue : List Entry) (seen : List ℕ) : Prop :=
  ∃ D, InvD g s queue seen D

/-! ### Itinerary routines (MHN.py lines 363-399 and 684-725) -/

/-- Errors the itinerary routines can raise: `KeyError` on a missing
`abb_miles_dict` or `route_miles_dict` key (the error carries the offending
key, as Python's `KeyError` does), and `ZeroDivisionError`. -/
inductive ItinErr where
  | keyError (key : ℕ)
  | zeroDivision
deriving DecidableEq

/-- A row of a `bus_*_itin` table as read by `calculate_itin_measures`:
`TRANSIT_LINE`, `ITIN_ORDER`, `ABB`, `F_MEAS`, `T_MEAS`. -/
structure ItinRow where
  transit_line : ℕ
  itin_order : ℕ
  abb : ℕ
  f_meas : ℚ
  t_meas : ℚ
deriving DecidableEq

/-- The link-length dictionary `abb_miles_dict` (ABB → MILES). -/
abbrev LinkLengths := ℕ → Option ℚ

/-- 1st loop of `calculate_itin_measures`: accumulate each route's total MILES
into `route_miles_dict` (`+=` when the route is already a key, `=` otherwise). -/
def route_miles_pass (lookup : LinkLengths) : List ItinRow → (ℕ → Option ℚ) →
    Except ItinErr (ℕ → Option ℚ)
  | [], d => .ok d
  | r :: rest, d =>
    match lookup r.abb with
    | none => .error (.keyError r.abb)
    | some miles =>
      route_miles_pass lookup rest
        (fun q => if q = r.transit_line then some ((d r.transit_line).getD 0 + miles) else d q)

/-- 2nd loop of `calculate_itin_measures`: walk the rows in cursor order,
resetting `cumulative_percent` to 0 at each `ITIN_ORDER == 1` row, and write
`F_MEAS`/`T_MEAS`.  (The source also maintains an `order_tracker` variable,
which is never read and is omitted.)  A route total of `0` makes
`segment_length / route_miles_dict[route]` raise `ZeroDivisionError`. -/
def itin_measures_pass (lookup : LinkLengths) (totals : ℕ → Option ℚ) :
    List ItinRow → ℚ → Except ItinErr (List ItinRow)
  | [], _ => .ok []
  | r :: rest, cum =>
    let cum0 := if r.itin_order = 1 then 0 else cum
    match lookup r.abb with
    | none => .error (.keyError r.abb)
    | some len =>
      match totals r.transit_line with
      | none => .error (.keyError r.transit_line)
      | some total =>
        if total = 0 then .error .zeroDivision
        else
          (itin_measures_pass lookup totals rest (cum0 + len / total * 100)).map
            (fun rs => ⟨r.transit_line, r.itin_order, r.abb, cum0, cum0 + len / total * 100⟩ :: rs)

/-- `calculate_itin_measures(itin_table)`: both passes over the same rows. -/
def calculate_itin_measures (lookup : LinkLengths) (rows : List ItinRow) :
    Except ItinErr (List ItinRow) :=
  (route_miles_pass lookup rows (fun _ => none)).bind
    (fun totals => itin_measures_pass lookup totals rows 0)

/-- Rows of one route's block, `ITIN_ORDER` counting from `k`. -/
def flattenBlockAux (route : ℕ) : ℕ → List ℕ → List ItinRow
  | _, [] => []
  | k, a :: rest => ⟨route, k, a, 0, 0⟩ :: flattenBlockAux route (k + 1) rest

/-- Rows of one route's block: `ITIN_ORDER` restarts at 1. -/
def flattenBlock (route : ℕ) (abbs : List ℕ) : List ItinRow :=
  flattenBlockAux route 1 abbs

/-- An itinerary table in `(TRANSIT_LINE, ITIN_ORDER)` cursor order: for each
route a block of rows whose `ITIN_ORDER` restarts at 1. -/
def flattenRoutes : List (ℕ × List ℕ) → List ItinRow
  | [] => []
  | b :: bs => flattenBlock b.1 b.2 ++ flattenRoutes bs

/-- Total length of a route's links. -/
def blockTotal (lookup : LinkLengths) (abbs : List ℕ) : ℚ :=
  (abbs.map (fun a => (lookup a).getD 0)).sum

/-- The running `cumulative_percent` value after processing a list of links of
a route with total length `total`. -/
def cumAfter (lookup : LinkLengths) (total : ℚ) : List ℕ → ℚ → ℚ
  | [], cum => cum
  | a :: rest, cum => cumAfter lookup total rest (cum + (lookup a).getD 0 / total * 100)

/-- Modelled from the spec (§4.2): the documented measures of one route's
segments — `from_measure = cumulative_percent`,
`segment_percent = link_length / route_total_length * 100`,
`to_measure = cumulative_percent + segment_percent`.  Used as the refinement
target for `calculate_itin_measures`. -/
def specMeasuresBlock (lookup : LinkLengths) (route : ℕ) (total : ℚ) :
    List ℕ → ℕ → ℚ → List ItinRow
  | [], _, _ => []
  | a :: rest, k, cum =>
    ⟨route, k, a, cum, cum + (lookup a).getD 0 / total * 100⟩ ::
      specMeasuresBlock lookup route total rest (k + 1) (cum + (lookup a).getD 0 / total * 100)

/-- Modelled from the spec (§4.2): documented measures of a whole table,
route block by route block, the cumulative percentage reset to 0 per route. -/
def specMeasures (lookup : LinkLengths) : List (ℕ × List ℕ) → List ItinRow
  | [] => []
  | b :: bs =>
    specMeasuresBlock lookup b.1 (blockTotal lookup b.2) b.2 1 0 ++ specMeasures lookup bs

/-- A row of a `bus_*_itin` table as read by `validate_itin_times`:
`TRANSIT_LINE`, `ITIN_ORDER`, `ABB`, `DEP_TIME`, `ARR_TIME`, `LINE_SERV_TIME`. -/
structure TimeRow where
  transit_line : ℕ
  itin_order : ℕ
  abb : ℕ
  dep_time : ℚ
  arr_time : ℚ
  line_serv_time : ℚ
deriving DecidableEq

/-- Step 1 of the `validate_itin_times` loop body: if not the route's first
segment and `dep_time < prev_arr_time`, shift `dep_time` forward by the
discrepancy. -/
def adjDep (prev : ℚ) (r : TimeRow) : ℚ :=
  if 1 < r.itin_order ∧ r.dep_time < prev then r.dep_time + (prev - r.dep_time) else r.dep_time

/-- Step 1 continued: inside the same branch, if `arr_time` fell behind the
shifted `dep_time`, shift it forward to match. -/
def adjArr (prev : ℚ) (r : TimeRow) : ℚ :=
  if (1 < r.itin_order ∧ r.dep_time < prev) ∧ r.arr_time < adjDep prev r then
    r.arr_time + (adjDep prev r - r.arr_time)
  else r.arr_time

/-- The `validate_itin_times` loop body for one row: after the step-1
adjustment, a segment with `dep_time == arr_time` gets its travel time
re-estimated at 30 mph — `time_est = int(round(MILES / 30 * 60 * 60))` seconds
added to `arr_time`, and `LINE_SERV_TIME = max(round(time_est / 60., 1), 0.1)`
minutes.  The `abb_miles_dict[abb]` lookup happens only inside that branch. -/
def validateRow (lookup : LinkLengths) (prev : ℚ) (r : TimeRow) : Except ItinErr TimeRow :=
  let dep1 := adjDep prev r
  let arr1 := adjArr prev r
  if dep1 = arr1 then
    match lookup r.abb with
    | none => .error (.keyError r.abb)
    | some len =>
      let time_est : ℤ := pyRound (len / 30 * 60 * 60)
      .ok ⟨r.transit_line, r.itin_order, r.abb, dep1, arr1 + (time_est : ℚ),
        max (pyRound1 ((time_est : ℚ) / 60)) (1 / 10)⟩
  else .ok ⟨r.transit_line, r.itin_order, r.abb, dep1, arr1, r.line_serv_time⟩

/-- The `validate_itin_times` loop over the rows in cursor order, carrying
`prev_arr_time` (the previously written `arr_time`). -/
def validate_pass (lookup : LinkLengths) : List TimeRow → ℚ → Except ItinErr (List TimeRow)
  | [], _ => .ok []
  | r :: rest, prev =>
    (validateRow lookup prev r).bind
      (fun r2 => (validate_pass lookup rest r2.arr_time).map (fun rs => r2 :: rs))

/-- `validate_itin_times(itin_table)`: `prev_arr_time` starts at 0. -/
def validate_itin_times (lookup : LinkLengths) (rows : List TimeRow) :
    Except ItinErr (List TimeRow) :=
  validate_pass lookup rows 0

/-! ### TIPID helpers (MHN.py lines 515-526 and 665-681)

TIPID strings are modelled as `List Char`. -/

/-- A decimal digit character, as accepted by Python's `int()`. -/
def isDigitCh (c : Char) : Bool := 48 ≤ c.toNat && c.toNat ≤ 57

/-- Value of a string of digit characters, most significant first. -/
def parseDigits (s : List Char) : ℕ :=
  s.foldl (fun a c => a * 10 + (c.toNat - 48)) 0

/-- Strip leading and trailing spaces, as Python's `int()` does before
parsing. -/
def stripSpaces (s : List Char) : List Char :=
  ((s.dropWhile (fun c => c = ' ')).reverse.dropWhile (fun c => c = ' ')).reverse

/-- Python's `int(str)`: optional surrounding whitespace, an optional sign, and
a non-empty run of digits; `none` models the `ValueError` raised otherwise. -/
def pyInt (s0 : List Char) : Option ℤ :=
  let s := stripSpaces s0
  let sm : ℤ × List Char :=
    match s with
    | c :: rest => if c = '-' then (-1, rest) else if c = '+' then (1, rest) else (1, s)
    | [] => (1, [])
  if sm.2 ≠ [] ∧ sm.2.all isDigitCh then some (sm.1 * (parseDigits sm.2 : ℤ)) else none

/-- Python's `str.split('-')`: split at every dash, keeping empty pieces. -/
def splitOnDash : List Char → List (List Char)
  | [] => [[]]
  | c :: rest =>
    match splitOnDash rest with
    | [] => [[]]
    | gp :: gps => if c = '-' then [] :: gp :: gps else (c :: gp) :: gps

/-- Python's `str(n)` for a non-negative integer: its decimal digit string. -/
def pyStrNat (n : ℕ) : List Char :=
  if n = 0 then ['0'] else ((Nat.digits 10 n).map Nat.digitChar).reverse

/-- Python's `str.zfill(w)`: left-pad with `'0'` to width `w`. -/
def zfill (w : ℕ) (s : List Char) : List Char :=
  List.replicate (w - s.length) '0' ++ s

/-- `is_tipid(in_str)`: length 10, exactly three dash-separated parts, each an
`int()`-parsable value with `0 <= pt1 <= 99`, `0 <= pt2 <= 99`,
`0 <= pt3 <= 9999` (a failing unpack or parse is caught and yields `False`). -/
def is_tipid (t : List Char) : Bool :=
  t.length = 10 &&
    match splitOnDash t with
    | [p1, p2, p3] =>
      match pyInt p1, pyInt p2, pyInt p3 with
      | some a, some b, some c =>
        decide ((0 ≤ a ∧ a ≤ 99) ∧ (0 ≤ b ∧ b ≤ 99) ∧ (0 ≤ c ∧ c ≤ 9999))
      | _, _, _ => false
    | _ => false

/-- `tipid_from_int(n)`: zero-fill `str(n)` to 8 characters, insert dashes
after positions 2 and 4, and return the result only if it `is_tipid`.
The argument is modelled as a natural number. -/
def tipid_from_int (n : ℕ) : Option (List Char) :=
  let s := zfill 8 (pyStrNat n)
  let t := s.take 2 ++ '-' :: ((s.drop 2).take 2 ++ '-' :: s.drop 4)
  if is_tipid t then some t else none

/-- `tipid_to_int(tipid)`: `None` unless `is_tipid`, else `int` of the string
with the dashes removed. -/
def tipid_to_int (t : List Char) : Option ℤ :=
  if is_tipid t then pyInt (t.filter (fun c => c ≠ '-')) else none

end MHN

namespace MHN

/-! ### Unfolding lemmas for the search loop -/

theorem dijkstraLoop_pop_none {g : Graph} {e : ℕ} {queue : List Entry} {seen : List ℕ}
    (hq : popMin queue = none) :
    dijkstraLoop g e queue seen = (.error .queueExhausted, g) := by
  rw [dijkstraLoop, hq]

theorem dijkstraLoop_skip {g : Graph} {e : ℕ} {queue : List Entry} {seen : List ℕ}
    {ent : Entry} {rest : List Entry} (hq : popMin queue = some (ent, rest))
    (hs : ent.node ∈ seen) : dijkstraLoop g e queue seen = dijkstraLoop g e rest seen := by
  rw [dijkstraLoop, hq]
  simp [hs]

theorem dijkstraLoop_found {g : Graph} {e : ℕ} {queue : List Entry} {seen : List ℕ}
    {ent : Entry} {rest : List Entry} (hq : popMin queue = some (ent, rest))
    (hs : ent.node ∉ seen) (he : ent.node = e) :
    dijkstraLoop g e queue seen = (.ok (ent.cost, ent.path ++ [ent.node]), g) := by
  subst he
  rw [dijkstraLoop, hq]
  simp [hs]

theorem dijkstraLoop_expand_none {g : Graph} {e : ℕ} {queue : List Entry} {seen : List ℕ}
    {ent : Entry} {rest : List Entry} (hq : popMin queue = some (ent, rest))
    (hs : ent.node ∉ seen) (he : ent.node ≠ e) (hl : List.lookup ent.node g = none) :
    dijkstraLoop g e queue seen = dijkstraLoop g e rest (ent.node :: seen) := by
  rw [dijkstraLoop, hq]
  simp only [hs, dite_false, dif_neg, if_neg he]
  split
  · rfl
  · rename_i nb heq
    rw [hl] at heq
    exact absurd heq (by simp)

theorem dijkstraLoop_expand {g : Graph} {e : ℕ} {queue : List Entry} {seen : List ℕ}
    {ent : Entry} {rest : List Entry} {nbrs : List (ℕ × ℚ)}
    (hq : popMin queue = some (ent, rest))
    (hs : ent.node ∉ seen) (he : ent.node ≠ e) (hl : List.lookup ent.node g = some nbrs) :
    dijkstraLoop g e queue seen =
      dijkstraLoop g e
        (rest ++ nbrs.map (fun bc => ⟨ent.cost + bc.2, bc.1, ent.path ++ [ent.node]⟩))
        (ent.node :: seen) := by
  rw [dijkstraLoop, hq]
  simp only [hs, dite_false, dif_neg, if_neg he]
  split
  · rename_i heq
    rw [hl] at heq
    exact absurd heq (by simp)
  · rename_i nb heq
    rw [hl] at heq
    obtain rfl : nbrs = nb := by injection heq
    rfl

/-- The loop returns the graph it was given, whatever else it does. -/
theorem dijkstraLoop_graph (g : Graph) (e : ℕ) (queue : List Entry) (seen : List ℕ) :
    (dijkstraLoop g e queue seen).2 = g := by
  induction queue, seen using dijkstraLoop.induct g e with
  | case1 queue seen hq => rw [dijkstraLoop_pop_none hq]
  | case2 queue seen ent rest hq hs ih => rw [dijkstraLoop_skip hq hs]; exact ih
  | case3 queue seen ent rest hq hs he => rw [dijkstraLoop_found hq hs he]
  | case4 queue seen ent rest hq hs he hl ih => rw [dijkstraLoop_expand_none hq hs he hl]; exact ih
  | case5 queue seen ent rest hq hs he nbrs hl ih => rw [dijkstraLoop_expand hq hs he hl]; exact ih

/-- C9: any terminating call of `find_shortest_path` (also one that ends in the
queue-exhausted error) leaves the graph exactly as it found it: the loop body
never writes to `graph`. -/
theorem find_shortest_path_preserves_graph (g : Graph) (s e : ℕ) :
    (find_shortest_path g s e).2 = g :=
  dijkstraLoop_graph g e [⟨0, s, []⟩] []

/-- C2: on a graph with two disconnected single-node components, the search
pops and expands `start`, pushes nothing, and the next `heappop` hits an empty
queue — the Python code raises an uncaught `IndexError` instead of returning an
explicit "not found" value. -/
theorem find_shortest_path_unreachable_raises :
    find_shortest_path [(1, []), (2, [])] 1 2 =
      (.error .queueExhausted, [(1, []), (2, [])]) := by
  have h1 : popMin [(⟨0, 1, []⟩ : Entry)] = some (⟨0, 1, []⟩, []) := by decide
  have h2 : ((⟨0, 1, []⟩ : Entry)).node ∉ ([] : List ℕ) := by decide
  have h3 : ((⟨0, 1, []⟩ : Entry)).node ≠ 2 := by decide
  have h4 : List.lookup ((⟨0, 1, []⟩ : Entry)).node [(1, ([] : List (ℕ × ℚ))), (2, [])]
      = some [] := by decide
  rw [find_shortest_path, dijkstraLoop_expand h1 h2 h3 h4]
  show dijkstraLoop [(1, []), (2, [])] 2 [] [1] = (.error .queueExhausted, [(1, []), (2, [])])
  rw [dijkstraLoop_pop_none (show popMin [] = none from rfl)]


/-! ### Concrete itinerary evaluations -/

/-- C5: a route whose only segment has length 0 has route total 0, and
`segment_length / route_miles_dict[route]` raises a bare `ZeroDivisionError` —
there is no "degenerate route" error naming the route. -/
theorem calculate_itin_measures_zero_route_raises :
    calculate_itin_measures (fun a => if a = 3 then some 0 else none) [⟨5, 1, 3, 0, 0⟩] =
      .error .zeroDivision := by
  norm_num [calculate_itin_measures, route_miles_pass, itin_measures_pass, Except.bind]

/-- C6: a segment whose ABB is absent from `abb_miles_dict` makes both
itinerary routines raise Python's generic `KeyError` (carrying the key), not a
dedicated "missing link" error: `calculate_itin_measures` fails in its first
loop at `abb_miles_dict[abb]`, and `validate_itin_times` fails at the same
lookup when re-estimating a zero-time segment. -/
theorem itin_missing_link_raises :
    calculate_itin_measures (fun _ => none) [⟨5, 1, 3, 0, 0⟩] = .error (.keyError 3) ∧
      validate_itin_times (fun _ => none) [⟨5, 1, 3, 0, 0, 0⟩] = .error (.keyError 3) := by
  constructor
  · norm_num [calculate_itin_measures, route_miles_pass, Except.bind]
  · norm_num [validate_itin_times, validate_pass, validateRow, adjDep, adjArr, Except.bind, Except.map]

/-- C4 counterexample: a route's first segment whose input `DEP_TIME` exceeds
its input `ARR_TIME` is written back unchanged (`ITIN_ORDER == 1` skips the
shift and `dep_time ≠ arr_time` skips the re-estimate), so the recorded
arrival 50 is smaller than the recorded departure 100 — the claimed output
invariant fails on such input. -/
theorem validate_itin_times_monotone_cex :
    validate_itin_times (fun _ => some 1) [⟨1, 1, 1, 100, 50, 0⟩] =
        .ok [⟨1, 1, 1, 100, 50, 0⟩] ∧ (50 : ℚ) < 100 := by
  constructor
  · norm_num [validate_itin_times, validate_pass, validateRow, adjDep, adjArr, Except.bind, Except.map]
  · norm_num

/-- C8 counterexample: segment 2 departs 100 s before segment 1's arrival
(dep 0 vs arrival 100), so its departure is shifted to 100; but its arrival
500 is not behind the shifted departure, so the arrival is left at 500 — not
shifted forward by 100 s (which would give 600) as the claim states. -/
theorem validate_itin_times_shift_repair_cex :
    validate_itin_times (fun a => if a = 2 then some 3 else none)
        [⟨1, 1, 1, 0, 100, 1⟩, ⟨1, 2, 2, 0, 500, 1⟩] =
        .ok [⟨1, 1, 1, 0, 100, 1⟩, ⟨1, 2, 2, 100, 500, 1⟩] ∧ (500 : ℚ) ≠ 500 + 100 := by
  constructor
  · norm_num [validate_itin_times, validate_pass, validateRow, adjDep, adjArr, Except.bind, Except.map]
  · norm_num


/-! ### Properties of the time-repair loop body -/

theorem pyRound_nonneg {q : ℚ} (h : 0 ≤ q) : 0 ≤ pyRound q := by
  unfold pyRound
  rw [if_pos h]
  exact Int.le_floor.2 (by push_cast; linarith)

/-- C7: in `validate_itin_times`, a segment whose (possibly shift-adjusted)
departure equals its arrival gets `round(MILES / 30 * 3600)` seconds added to
its arrival time and `LINE_SERV_TIME = max(round(time_est / 60., 1), 0.1)`
minutes. -/
theorem validate_itin_times_zero_time_estimate (lookup : LinkLengths) (prev : ℚ) (r : TimeRow)
    (len : ℚ) (hlk : lookup r.abb = some len) (heq : adjDep prev r = adjArr prev r) :
    validateRow lookup prev r =
      .ok ⟨r.transit_line, r.itin_order, r.abb, adjDep prev r,
        adjArr prev r + (pyRound (len / 30 * 60 * 60) : ℚ),
        max (pyRound1 ((pyRound (len / 30 * 60 * 60) : ℚ) / 60)) (1 / 10)⟩ := by
  simp only [validateRow]
  rw [if_pos heq, hlk]

/-- C7 witness: a 5-mile zero-time segment gets `round(5/30*3600) = 600`
seconds added (arrival 300 → 900) and `LINE_SERV_TIME = 10.0` minutes. -/
theorem validate_itin_times_zero_time_estimate_witness :
    (fun a => if a = 9 then some (5 : ℚ) else none) ((⟨3, 1, 9, 300, 300, 7⟩ : TimeRow)).abb
        = some 5 ∧
      adjDep 0 ⟨3, 1, 9, 300, 300, 7⟩ = adjArr 0 ⟨3, 1, 9, 300, 300, 7⟩ ∧
      validateRow (fun a => if a = 9 then some (5 : ℚ) else none) 0 ⟨3, 1, 9, 300, 300, 7⟩ =
        .ok ⟨3, 1, 9, 300, 900, 10⟩ := by
  refine ⟨rfl, by norm_num [adjDep, adjArr], ?_⟩
  have h := validate_itin_times_zero_time_estimate
    (fun a => if a = 9 then some (5 : ℚ) else none) 0 ⟨3, 1, 9, 300, 300, 7⟩ 5
    (by norm_num) (by norm_num [adjDep, adjArr])
  rw [h]
  norm_num [adjDep, adjArr, pyRound, pyRound1]

/-- C8 (amended): when segment 2's departure precedes segment 1's recorded
arrival `t1` by 100 seconds, the departure is shifted forward by 100 seconds
(to `t1`); the arrival is left unchanged if it is already past the shifted
departure, and otherwise is raised to the shifted departure and then gets the
30 mph estimate added (the two now coincide); afterwards segment 2 neither
departs before segment 1's recorded arrival nor arrives before it departs. -/
theorem validate_itin_times_shift_repair (lookup : LinkLengths) (route a1 a2 : ℕ)
    (d1 t1 d2 t2 l1 l2 len2 : ℚ) (h1 : d1 ≠ t1) (hlk : lookup a2 = some len2)
    (hnn : 0 ≤ len2) (hgap : d2 = t1 - 100) :
    ∃ r2, validate_itin_times lookup [⟨route, 1, a1, d1, t1, l1⟩, ⟨route, 2, a2, d2, t2, l2⟩] =
        .ok [⟨route, 1, a1, d1, t1, l1⟩, r2] ∧
      r2.dep_time = d2 + 100 ∧
      (t1 < t2 → r2.arr_time = t2) ∧
      (t2 ≤ t1 → r2.arr_time = t1 + (pyRound (len2 / 30 * 60 * 60) : ℚ)) ∧
      t1 ≤ r2.dep_time ∧ r2.dep_time ≤ r2.arr_time := by
  have hd2 : d2 < t1 := by rw [hgap]; linarith
  have hd2100 : d2 + 100 = t1 := by rw [hgap]; ring
  have hrow1 : validateRow lookup 0 ⟨route, 1, a1, d1, t1, l1⟩ =
      .ok ⟨route, 1, a1, d1, t1, l1⟩ := by
    simp only [validateRow, adjDep, adjArr]
    norm_num [h1]
  have hdep : adjDep t1 ⟨route, 2, a2, d2, t2, l2⟩ = t1 := by
    simp only [adjDep]
    rw [if_pos ⟨by norm_num, hd2⟩]
    ring
  have harr : adjArr t1 ⟨route, 2, a2, d2, t2, l2⟩ = if t2 < t1 then t1 else t2 := by
    simp only [adjArr, hdep]
    by_cases hc : t2 < t1
    · rw [if_pos (show ((1:ℕ) < 2 ∧ d2 < t1) ∧ t2 < t1 from ⟨⟨by norm_num, hd2⟩, hc⟩),
        if_pos hc]
      ring
    · rw [if_neg (show ¬(((1:ℕ) < 2 ∧ d2 < t1) ∧ t2 < t1) from fun h => hc h.2), if_neg hc]
  simp only [validate_itin_times, validate_pass, hrow1, Except.bind]
  by_cases hc : t2 ≤ t1
  · have harr2 : adjArr t1 ⟨route, 2, a2, d2, t2, l2⟩ = t1 ∨
        adjArr t1 ⟨route, 2, a2, d2, t2, l2⟩ = t2 := by
      rw [harr]; split <;> simp
    have harr1 : adjArr t1 ⟨route, 2, a2, d2, t2, l2⟩ = t1 := by
      rw [harr]
      rcases lt_or_eq_of_le hc with h | h
      · rw [if_pos h]
      · rw [h]; split <;> rfl
    have hrow2 : validateRow lookup t1 ⟨route, 2, a2, d2, t2, l2⟩ =
        .ok ⟨route, 2, a2, t1, t1 + (pyRound (len2 / 30 * 60 * 60) : ℚ),
          max (pyRound1 ((pyRound (len2 / 30 * 60 * 60) : ℚ) / 60)) (1 / 10)⟩ := by
      have h := validate_itin_times_zero_time_estimate lookup t1 ⟨route, 2, a2, d2, t2, l2⟩
        len2 hlk (by rw [hdep, harr1])
      rw [h, hdep, harr1]
    rw [hrow2]
    refine ⟨⟨route, 2, a2, t1, t1 + (pyRound (len2 / 30 * 60 * 60) : ℚ),
        max (pyRound1 ((pyRound (len2 / 30 * 60 * 60) : ℚ) / 60)) (1 / 10)⟩,
      ?_, ?_, ?_, ?_, ?_, ?_⟩
    · simp [validate_pass, Except.map, Except.bind]
    · simpa using hd2100.symm
    · intro hlt; exact absurd hlt (not_lt.2 hc)
    · intro _; rfl
    · simp
    · have h0 := pyRound_nonneg (show (0:ℚ) ≤ len2 / 30 * 60 * 60 by positivity)
      have hcast : (0:ℚ) ≤ (pyRound (len2 / 30 * 60 * 60) : ℚ) := by exact_mod_cast h0
      simp only []
      linarith
  · push_neg at hc
    have harr1 : adjArr t1 ⟨route, 2, a2, d2, t2, l2⟩ = t2 := by
      rw [harr, if_neg (not_lt.2 (le_of_lt hc))]
    have hrow2 : validateRow lookup t1 ⟨route, 2, a2, d2, t2, l2⟩ =
        .ok ⟨route, 2, a2, t1, t2, l2⟩ := by
      simp only [validateRow, hdep, harr1]
      rw [if_neg (by intro h; rw [h] at hc; exact lt_irrefl _ hc)]
    rw [hrow2]
    refine ⟨⟨route, 2, a2, t1, t2, l2⟩, ?_, ?_, ?_, ?_, ?_, ?_⟩
    · simp [validate_pass, Except.map, Except.bind]
    · simpa using hd2100.symm
    · intro _; rfl
    · intro hle; exact absurd hle (not_le.2 hc)
    · simp
    · simp only []
      linarith


/-- C8 witness: segment 1 records arrival 100; segment 2 departs at 0
(100 seconds earlier) with arrival 0 and a 3-mile link. -/
theorem validate_itin_times_shift_repair_witness :
    ((0 : ℚ) ≠ 100) ∧
      ((fun a => if a = 2 then some (3 : ℚ) else none) 2 = some 3) ∧
      ((0 : ℚ) ≤ 3) ∧ ((0 : ℚ) = 100 - 100) ∧
      (∃ r2, validate_itin_times (fun a => if a = 2 then some (3 : ℚ) else none)
          [⟨1, 1, 1, 0, 100, 1⟩, ⟨1, 2, 2, 0, 0, 1⟩] =
          .ok [⟨1, 1, 1, 0, 100, 1⟩, r2] ∧
        r2.dep_time = 0 + 100 ∧
        ((100 : ℚ) < 0 → r2.arr_time = 0) ∧
        ((0 : ℚ) ≤ 100 → r2.arr_time = 100 + (pyRound (3 / 30 * 60 * 60) : ℚ)) ∧
        (100 : ℚ) ≤ r2.dep_time ∧ r2.dep_time ≤ r2.arr_time) :=
  ⟨by norm_num, rfl, by norm_num, by norm_num,
    validate_itin_times_shift_repair (fun a => if a = 2 then some (3 : ℚ) else none)
      1 1 2 0 100 0 0 1 1 3 (by norm_num) rfl (by norm_num) (by norm_num)⟩

/-- Closed form of the step-1 departure adjustment. -/
theorem adjDep_eq (prev : ℚ) (r : TimeRow) :
    adjDep prev r = if 1 < r.itin_order ∧ r.dep_time < prev then prev else r.dep_time := by
  unfold adjDep
  split_ifs
  · ring
  · rfl

/-- On a non-first segment the adjusted departure is never before
`prev_arr_time`. -/
theorem adjDep_ge (prev : ℚ) (r : TimeRow) (h : 1 < r.itin_order) : prev ≤ adjDep prev r := by
  rw [adjDep_eq]
  split_ifs with hc
  · exact le_refl prev
  · push_neg at hc
    exact hc h

/-- If the segment's input departure is not after its input arrival, the
adjusted arrival is never before the adjusted departure. -/
theorem adjArr_ge_dep (prev : ℚ) (r : TimeRow) (hda : r.dep_time ≤ r.arr_time) :
    adjDep prev r ≤ adjArr prev r := by
  unfold adjArr
  split_ifs with hc
  · linarith
  · rw [adjDep_eq]
    split_ifs with hP
    · rw [adjDep_eq, if_pos hP] at hc
      have := fun hlt => hc ⟨hP, hlt⟩
      linarith [not_lt.1 this]
    · exact hda

/-- One `validate_itin_times` loop iteration on a sane row (departure not
after arrival, non-negative link length) succeeds and yields a row that
departs no earlier than `prev_arr_time` (when not the route's first segment)
and arrives no earlier than it departs. -/
theorem validateRow_props (lookup : LinkLengths) (prev : ℚ) (r : TimeRow) (len : ℚ)
    (hlk : lookup r.abb = some len) (hnn : 0 ≤ len) (hda : r.dep_time ≤ r.arr_time) :
    ∃ r2, validateRow lookup prev r = .ok r2 ∧ r2.itin_order = r.itin_order ∧
      r2.dep_time ≤ r2.arr_time ∧ (1 < r.itin_order → prev ≤ r2.dep_time) := by
  have hle := adjArr_ge_dep prev r hda
  simp only [validateRow]
  by_cases he : adjDep prev r = adjArr prev r
  · rw [if_pos he, hlk]
    refine ⟨_, rfl, rfl, ?_, ?_⟩
    · have h0 : (0 : ℚ) ≤ (pyRound (len / 30 * 60 * 60) : ℚ) := by
        exact_mod_cast pyRound_nonneg (by positivity)
      simp only []
      linarith
    · intro h
      simpa using adjDep_ge prev r h
  · rw [if_neg he]
    exact ⟨_, rfl, rfl, hle, fun h => adjDep_ge prev r h⟩

/-- The loop of `validate_itin_times`, started at an arbitrary
`prev_arr_time`, on sane rows: every output row arrives no earlier than it
departs, consecutive output rows are monotone at every non-first segment, and
the first output row respects the starting `prev_arr_time`. -/
theorem validate_pass_mono (lookup : LinkLengths) (rows : List TimeRow)
    (hlk : ∀ r ∈ rows, ∃ len, lookup r.abb = some len ∧ 0 ≤ len)
    (hda : ∀ r ∈ rows, r.dep_time ≤ r.arr_time) :
    ∀ prev, ∃ out, validate_pass lookup rows prev = .ok out ∧
      (∀ r ∈ out, r.dep_time ≤ r.arr_time) ∧
      List.Chain' (fun a b => 1 < b.itin_order → a.arr_time ≤ b.dep_time) out ∧
      (∀ b ∈ out.head?, 1 < b.itin_order → prev ≤ b.dep_time) := by
  induction rows with
  | nil => exact fun prev => ⟨[], rfl, by simp, by simp, by simp⟩
  | cons r rest ih =>
    intro prev
    obtain ⟨len, hl, hn⟩ := hlk r (by simp)
    obtain ⟨r2, hval, hord, hda2, hprev⟩ :=
      validateRow_props lookup prev r len hl hn (hda r (by simp))
    obtain ⟨out, hout, hall, hchain, hhead⟩ :=
      ih (fun x hx => hlk x (by simp [hx])) (fun x hx => hda x (by simp [hx])) r2.arr_time
    refine ⟨r2 :: out, ?_, ?_, ?_, ?_⟩
    · simp only [validate_pass, hval, Except.bind, hout, Except.map]
    · intro x hx
      rcases List.mem_cons.1 hx with rfl | hx2
      · exact hda2
      · exact hall x hx2
    · rw [List.chain'_cons']
      exact ⟨hhead, hchain⟩
    · intro b hb hob
      simp only [List.head?_cons, Option.mem_def, Option.some.injEq] at hb
      subst hb
      exact hprev (hord ▸ hob)

/-- C4 (amended): on an itinerary table whose referenced links all have
non-negative lengths and whose every input segment departs no later than it
arrives, `validate_itin_times` succeeds and its recorded times are
monotonically consistent: no output segment's arrival precedes its departure,
and no output segment with `ITIN_ORDER > 1` (i.e. with a previous same-route
segment, when rows are in cursor order) departs before the previous row's
recorded arrival. -/
theorem validate_itin_times_monotone (lookup : LinkLengths) (rows : List TimeRow)
    (hlk : ∀ r ∈ rows, ∃ len, lookup r.abb = some len ∧ 0 ≤ len)
    (hda : ∀ r ∈ rows, r.dep_time ≤ r.arr_time) :
    ∃ out, validate_itin_times lookup rows = .ok out ∧
      (∀ r ∈ out, r.dep_time ≤ r.arr_time) ∧
      List.Chain' (fun a b => 1 < b.itin_order → a.arr_time ≤ b.dep_time) out := by
  obtain ⟨out, h1, h2, h3, _⟩ := validate_pass_mono lookup rows hlk hda 0
  exact ⟨out, h1, h2, h3⟩

/-- C4 witness: a sane two-segment route through the amended theorem. -/
theorem validate_itin_times_monotone_witness :
    (∀ r ∈ [(⟨1, 1, 5, 0, 100, 3⟩ : TimeRow), ⟨1, 2, 6, 90, 200, 2⟩],
        ∃ len, (fun _ => some (1 : ℚ)) r.abb = some len ∧ 0 ≤ len) ∧
      (∀ r ∈ [(⟨1, 1, 5, 0, 100, 3⟩ : TimeRow), ⟨1, 2, 6, 90, 200, 2⟩],
        r.dep_time ≤ r.arr_time) ∧
      (∃ out, validate_itin_times (fun _ => some (1 : ℚ))
          [⟨1, 1, 5, 0, 100, 3⟩, ⟨1, 2, 6, 90, 200, 2⟩] = .ok out ∧
        (∀ r ∈ out, r.dep_time ≤ r.arr_time) ∧
        List.Chain' (fun a b => 1 < b.itin_order → a.arr_time ≤ b.dep_time) out) := by
  refine ⟨fun r _ => ⟨1, rfl, by norm_num⟩, ?_, ?_⟩
  · intro r hr
    rcases List.mem_cons.1 hr with rfl | hr2
    · norm_num
    · rcases List.mem_cons.1 hr2 with rfl | hr3
      · norm_num
      · simp at hr3
  · exact validate_itin_times_monotone (fun _ => some (1 : ℚ))
      [⟨1, 1, 5, 0, 100, 3⟩, ⟨1, 2, 6, 90, 200, 2⟩]
      (fun r _ => ⟨1, rfl, by norm_num⟩)
      (by
        intro r hr
        rcases List.mem_cons.1 hr with rfl | hr2
        · norm_num
        · rcases List.mem_cons.1 hr2 with rfl | hr3
          · norm_num
          · simp at hr3)


/-! ### Association-list helpers -/

theorem lookup_of_mem_nodup {β : Type _} {l : List (ℕ × β)} {a : ℕ} {b : β}
    (hnd : (l.map Prod.fst).Nodup) (hm : (a, b) ∈ l) : List.lookup a l = some b := by
  induction l with
  | nil => simp at hm
  | cons p ps ih =>
    obtain ⟨k, v⟩ := p
    rw [List.map_cons, List.nodup_cons] at hnd
    rcases List.mem_cons.1 hm with heq | hm2
    · obtain ⟨rfl, rfl⟩ : a = k ∧ b = v := by
        constructor <;> [exact congrArg Prod.fst heq; exact congrArg Prod.snd heq]
      simp [List.lookup_cons]
    · have hk : a ≠ k := by
        rintro rfl
        exact hnd.1 (List.mem_map.2 ⟨(a, b), hm2, rfl⟩)
      rw [List.lookup_cons, beq_false_of_ne hk]
      exact ih hnd.2 hm2

theorem lookup_none_of_not_mem {β : Type _} {l : List (ℕ × β)} {a : ℕ}
    (h : a ∉ l.map Prod.fst) : List.lookup a l = none := by
  induction l with
  | nil => rfl
  | cons p ps ih =>
    obtain ⟨k, v⟩ := p
    simp only [List.map_cons, List.mem_cons] at h
    push_neg at h
    rw [List.lookup_cons, beq_false_of_ne h.1]
    exact ih h.2

/-! ### The measure calculation refines its specification -/

theorem route_miles_pass_append (lookup : LinkLengths) (xs ys : List ItinRow)
    (d : ℕ → Option ℚ) :
    route_miles_pass lookup (xs ++ ys) d =
      (route_miles_pass lookup xs d).bind (fun d2 => route_miles_pass lookup ys d2) := by
  induction xs generalizing d with
  | nil => simp [route_miles_pass, Except.bind]
  | cons r rest ih =>
    show route_miles_pass lookup (r :: (rest ++ ys)) d = _
    cases hlr : lookup r.abb with
    | none =>
      simp only [route_miles_pass, hlr]
      rfl
    | some miles =>
      simp only [route_miles_pass, hlr]
      rw [ih]

theorem route_miles_pass_blockAux (lookup : LinkLengths) (route : ℕ) :
    ∀ (abbs : List ℕ) (k : ℕ) (d : ℕ → Option ℚ) (c : ℚ),
    (∀ a ∈ abbs, (lookup a).isSome) → d route = some c →
    route_miles_pass lookup (flattenBlockAux route k abbs) d =
      .ok (fun q => if q = route then some (c + blockTotal lookup abbs) else d q) := by
  intro abbs
  induction abbs with
  | nil =>
    intro k d c hlk hd
    simp only [flattenBlockAux, route_miles_pass, blockTotal, List.map_nil, List.sum_nil]
    congr 1
    funext q
    split_ifs with hq
    · rw [hq, hd]
      norm_num
    · rfl
  | cons a rest ih =>
    intro k d c hlk hd
    obtain ⟨la, hla⟩ := Option.isSome_iff_exists.1 (hlk a (by simp))
    simp only [flattenBlockAux, route_miles_pass, hla]
    rw [ih (k + 1) _ (c + la) (fun x hx => hlk x (by simp [hx]))
      (by simp only [if_pos rfl]; rw [hd]; simp)]
    congr 1
    funext q
    by_cases hq : q = route
    · simp only [if_pos hq]
      have : blockTotal lookup (a :: rest) = la + blockTotal lookup rest := by
        simp [blockTotal, hla]
      rw [this]
      ring_nf
    · simp only [if_neg hq]

theorem route_miles_pass_flatten (lookup : LinkLengths) :
    ∀ (blocks : List (ℕ × List ℕ)) (d : ℕ → Option ℚ),
    (blocks.map Prod.fst).Nodup → (∀ b ∈ blocks, b.2 ≠ []) →
    (∀ b ∈ blocks, ∀ a ∈ b.2, (lookup a).isSome) →
    route_miles_pass lookup (flattenRoutes blocks) d =
      .ok (fun q =>
        match List.lookup q (blocks.map (fun b => (b.1, blockTotal lookup b.2))) with
        | some t => some ((d q).getD 0 + t)
        | none => d q) := by
  intro blocks
  induction blocks with
  | nil =>
    intro d hnd hne hlk
    simp only [flattenRoutes, route_miles_pass, List.map_nil, List.lookup_nil]
  | cons b bs ih =>
    intro d hnd hne hlk
    obtain ⟨a, rest, hab⟩ : ∃ a rest, b.2 = a :: rest := by
      cases hb2 : b.2 with
      | nil => exact absurd hb2 (hne b (by simp))
      | cons a rest => exact ⟨a, rest, rfl⟩
    rw [List.map_cons, List.nodup_cons] at hnd
    obtain ⟨la, hla⟩ : ∃ la, lookup a = some la := by
      have := hlk b (by simp) a (by rw [hab]; simp)
      exact Option.isSome_iff_exists.1 this
    simp only [flattenRoutes, route_miles_pass_append]
    rw [hab, flattenBlock]
    simp only [flattenBlockAux, route_miles_pass, hla]
    rw [route_miles_pass_blockAux lookup b.1 rest 2 _ ((d b.1).getD 0 + la)
        (fun x hx => hlk b (by simp) x (by rw [hab]; simp [hx]))
        (by simp)]
    show route_miles_pass lookup (flattenRoutes bs) _ = _
    rw [ih _ hnd.2 (fun x hx => hne x (by simp [hx])) (fun x hx => hlk x (by simp [hx]))]
    congr 1
    funext q
    by_cases hq : q = b.1
    · subst hq
      have hnone : List.lookup b.1 (bs.map (fun x => (x.1, blockTotal lookup x.2))) = none := by
        apply lookup_none_of_not_mem
        rw [List.map_map]
        exact hnd.1
      have hTb : blockTotal lookup b.2 = la + blockTotal lookup rest := by
        rw [hab]
        simp [blockTotal, hla]
      simp only [List.map_cons, List.lookup_cons, beq_self_eq_true, hnone, hTb]
      simp
      ring
    · have hq2 : (q == b.1) = false := beq_false_of_ne hq
      simp only [List.map_cons, List.lookup_cons, hq2, if_neg hq]


theorem cumAfter_eq (lookup : LinkLengths) (T : ℚ) :
    ∀ (abbs : List ℕ) (cum : ℚ),
    cumAfter lookup T abbs cum = cum + blockTotal lookup abbs / T * 100 := by
  intro abbs
  induction abbs with
  | nil =>
    intro cum
    simp [cumAfter, blockTotal]
  | cons a rest ih =>
    intro cum
    rw [cumAfter, ih]
    have : blockTotal lookup (a :: rest) = (lookup a).getD 0 + blockTotal lookup rest := by
      simp [blockTotal]
    rw [this, add_div, add_mul]
    ring

theorem itin_measures_pass_aux (lookup : LinkLengths) (totals : ℕ → Option ℚ)
    (route : ℕ) (T : ℚ) (hT : totals route = some T) (hT0 : T ≠ 0) :
    ∀ (abbs : List ℕ) (k : ℕ) (cum : ℚ) (ys : List ItinRow), 2 ≤ k →
    (∀ a ∈ abbs, (lookup a).isSome) →
    itin_measures_pass lookup totals (flattenBlockAux route k abbs ++ ys) cum =
      (itin_measures_pass lookup totals ys (cumAfter lookup T abbs cum)).map
        (fun rs => specMeasuresBlock lookup route T abbs k cum ++ rs) := by
  intro abbs
  induction abbs with
  | nil =>
    intro k cum ys hk hlk
    simp only [flattenBlockAux, List.nil_append, cumAfter, specMeasuresBlock]
    cases itin_measures_pass lookup totals ys cum with
    | error err => rfl
    | ok v => simp [Except.map]
  | cons a rest ih =>
    intro k cum ys hk hlk
    obtain ⟨la, hla⟩ := Option.isSome_iff_exists.1 (hlk a (by simp))
    have hk1 : ¬((⟨route, k, a, 0, 0⟩ : ItinRow).itin_order = 1) := by
      simp only []
      omega
    simp only [flattenBlockAux, List.cons_append, List.append_eq, itin_measures_pass,
      if_neg hk1, hla, hT, if_neg hT0]
    rw [ih (k + 1) (cum + la / T * 100) ys (by omega) (fun x hx => hlk x (by simp [hx]))]
    have hca : cumAfter lookup T (a :: rest) cum = cumAfter lookup T rest (cum + la / T * 100) := by
      rw [cumAfter, hla]
      rfl
    rw [← hca]
    cases itin_measures_pass lookup totals ys (cumAfter lookup T (a :: rest) cum) with
    | error err => rfl
    | ok v =>
      simp only [Except.map, specMeasuresBlock, hla]
      rfl

theorem itin_measures_pass_block (lookup : LinkLengths) (totals : ℕ → Option ℚ)
    (route : ℕ) (T : ℚ) (hT : totals route = some T) (hT0 : T ≠ 0)
    (a : ℕ) (rest : List ℕ) (cum : ℚ) (ys : List ItinRow)
    (hlk : ∀ x ∈ a :: rest, (lookup x).isSome) :
    itin_measures_pass lookup totals (flattenBlock route (a :: rest) ++ ys) cum =
      (itin_measures_pass lookup totals ys (cumAfter lookup T (a :: rest) 0)).map
        (fun rs => specMeasuresBlock lookup route T (a :: rest) 1 0 ++ rs) := by
  obtain ⟨la, hla⟩ := Option.isSome_iff_exists.1 (hlk a (by simp))
  simp only [flattenBlock, flattenBlockAux, List.cons_append, List.append_eq,
    itin_measures_pass, hla, hT, if_neg hT0]
  norm_num
  rw [itin_measures_pass_aux lookup totals route T hT hT0 rest 2 (la / T * 100) ys
    (by omega) (fun x hx => hlk x (by simp [hx]))]
  have hca : cumAfter lookup T (a :: rest) 0 = cumAfter lookup T rest (la / T * 100) := by
    rw [cumAfter, hla]
    norm_num
  rw [← hca]
  cases itin_measures_pass lookup totals ys (cumAfter lookup T (a :: rest) 0) with
  | error err => rfl
  | ok v =>
    simp only [Except.map, specMeasuresBlock, hla]
    norm_num

theorem itin_measures_pass_flatten (lookup : LinkLengths) (totals : ℕ → Option ℚ) :
    ∀ (blocks : List (ℕ × List ℕ)) (cum : ℚ),
    (∀ b ∈ blocks, totals b.1 = some (blockTotal lookup b.2)) →
    (∀ b ∈ blocks, blockTotal lookup b.2 ≠ 0) →
    (∀ b ∈ blocks, b.2 ≠ []) →
    (∀ b ∈ blocks, ∀ a ∈ b.2, (lookup a).isSome) →
    itin_measures_pass lookup totals (flattenRoutes blocks) cum =
      .ok (specMeasures lookup blocks) := by
  intro blocks
  induction blocks with
  | nil =>
    intro cum _ _ _ _
    rfl
  | cons b bs ih =>
    intro cum hT hT0 hne hlk
    obtain ⟨a, rest, hab⟩ : ∃ a rest, b.2 = a :: rest := by
      cases hb2 : b.2 with
      | nil => exact absurd hb2 (hne b (by simp))
      | cons a rest => exact ⟨a, rest, rfl⟩
    have hstep := itin_measures_pass_block lookup totals b.1 (blockTotal lookup b.2)
      (hT b (by simp)) (hT0 b (by simp)) a rest cum (flattenRoutes bs)
      (by rw [← hab]; exact hlk b (by simp))
    rw [flattenRoutes, hab, hstep,
      ih _ (fun x hx => hT x (by simp [hx])) (fun x hx => hT0 x (by simp [hx]))
        (fun x hx => hne x (by simp [hx])) (fun x hx => hlk x (by simp [hx]))]
    simp only [Except.map, specMeasures, hab]

theorem getLast?_cons_of_ne_nil {α : Type _} (x : α) {l : List α} (h : l ≠ []) :
    (x :: l).getLast? = l.getLast? := by
  cases l with
  | nil => exact absurd rfl h
  | cons y ys => exact List.getLast?_cons_cons ..

theorem specMeasuresBlock_last (lookup : LinkLengths) (route : ℕ) (T : ℚ) :
    ∀ (abbs : List ℕ) (k : ℕ) (cum : ℚ), abbs ≠ [] →
    (specMeasuresBlock lookup route T abbs k cum).getLast?.map ItinRow.t_meas =
      some (cumAfter lookup T abbs cum) := by
  intro abbs
  induction abbs with
  | nil => exact fun k cum h => absurd rfl h
  | cons a rest ih =>
    intro k cum _
    cases rest with
    | nil => simp [specMeasuresBlock, cumAfter]
    | cons a2 rest2 =>
      have h2 : specMeasuresBlock lookup route T (a2 :: rest2) (k + 1)
          (cum + (lookup a).getD 0 / T * 100) ≠ [] := by
        simp [specMeasuresBlock]
      rw [specMeasuresBlock, getLast?_cons_of_ne_nil _ h2, cumAfter]
      exact ih (k + 1) (cum + (lookup a).getD 0 / T * 100) (by simp)

/-- C3: on a table in cursor order (routes in blocks, `ITIN_ORDER` restarting
at 1, no route repeated), with every link present in the length dict and every
route total positive, `calculate_itin_measures` computes exactly the
documented measures — `from_measure` the running cumulative percentage (reset
per route) and `to_measure` its advance by `link_length / route_total * 100` —
and each route's final `to_measure` is exactly 100. -/
theorem calculate_itin_measures_correct (lookup : LinkLengths) (blocks : List (ℕ × List ℕ))
    (hnd : (blocks.map Prod.fst).Nodup)
    (hne : ∀ b ∈ blocks, b.2 ≠ [])
    (hlk : ∀ b ∈ blocks, ∀ a ∈ b.2, (lookup a).isSome)
    (hpos : ∀ b ∈ blocks, 0 < blockTotal lookup b.2) :
    calculate_itin_measures lookup (flattenRoutes blocks) = .ok (specMeasures lookup blocks) ∧
      ∀ b ∈ blocks,
        (specMeasuresBlock lookup b.1 (blockTotal lookup b.2) b.2 1 0).getLast?.map
          ItinRow.t_meas = some 100 := by
  constructor
  · rw [calculate_itin_measures,
      route_miles_pass_flatten lookup blocks (fun _ => none) hnd hne hlk]
    show itin_measures_pass lookup _ (flattenRoutes blocks) 0 = _
    apply itin_measures_pass_flatten
    · intro b hb
      have hm : (b.1, blockTotal lookup b.2) ∈
          blocks.map (fun x => (x.1, blockTotal lookup x.2)) :=
        List.mem_map.2 ⟨b, hb, rfl⟩
      have hnd2 : ((blocks.map (fun x => (x.1, blockTotal lookup x.2))).map Prod.fst).Nodup := by
        rw [List.map_map]
        exact hnd
      rw [lookup_of_mem_nodup hnd2 hm]
      simp
    · intro b hb
      exact ne_of_gt (hpos b hb)
    · exact hne
    · exact hlk
  · intro b hb
    rw [specMeasuresBlock_last lookup b.1 (blockTotal lookup b.2) b.2 1 0 (hne b hb),
      cumAfter_eq, div_self (ne_of_gt (hpos b hb))]
    norm_num

/-- C3 witness: one route with links of lengths 1, 2, 1 miles (total 4) gets
the measure pairs `[0, 25]`, `[25, 75]`, `[75, 100]`. -/
theorem calculate_itin_measures_correct_witness :
    ((([(7, [1, 2, 3])] : List (ℕ × List ℕ)).map Prod.fst).Nodup) ∧
      (∀ b ∈ [((7 : ℕ), [1, 2, 3])], b.2 ≠ ([] : List ℕ)) ∧
      (∀ b ∈ [((7 : ℕ), [1, 2, 3])], ∀ a ∈ b.2,
        ((fun a => if a = 1 then some (1 : ℚ) else if a = 2 then some 2 else
          if a = 3 then some 1 else none) a).isSome) ∧
      (∀ b ∈ [((7 : ℕ), [1, 2, 3])], 0 < blockTotal
        (fun a => if a = 1 then some (1 : ℚ) else if a = 2 then some 2 else
          if a = 3 then some 1 else none) b.2) ∧
      flattenRoutes [(7, [1, 2, 3])] =
        [⟨7, 1, 1, 0, 0⟩, ⟨7, 2, 2, 0, 0⟩, ⟨7, 3, 3, 0, 0⟩] ∧
      calculate_itin_measures
        (fun a => if a = 1 then some (1 : ℚ) else if a = 2 then some 2 else
          if a = 3 then some 1 else none)
        (flattenRoutes [(7, [1, 2, 3])]) =
        .ok [⟨7, 1, 1, 0, 25⟩, ⟨7, 2, 2, 25, 75⟩, ⟨7, 3, 3, 75, 100⟩] := by
  refine ⟨by decide, by decide, by decide, by norm_num [blockTotal], by decide, ?_⟩
  have h := (calculate_itin_measures_correct
    (fun a => if a = 1 then some (1 : ℚ) else if a = 2 then some 2 else
      if a = 3 then some 1 else none)
    [(7, [1, 2, 3])] (by decide) (by decide) (by decide)
    (by norm_num [blockTotal])).1
  rw [h]
  norm_num [specMeasures, specMeasuresBlock, blockTotal]


/-! ### TIPID round trip -/

theorem digitChar_props (d : ℕ) (hd : d < 10) :
    isDigitCh (Nat.digitChar d) = true ∧ (Nat.digitChar d).toNat = 48 + d := by
  interval_cases d <;> exact ⟨by decide, by decide⟩

theorem foldl_digits (l : List ℕ) (hl : ∀ d ∈ l, d < 10) (a : ℕ) :
    ((l.map Nat.digitChar).reverse).foldl (fun x c => x * 10 + (c.toNat - 48)) a =
      a * 10 ^ l.length + Nat.ofDigits 10 l := by
  induction l generalizing a with
  | nil => simp
  | cons d t ih =>
    have hd := (digitChar_props d (hl d (by simp))).2
    simp only [List.map_cons, List.reverse_cons, List.foldl_append, List.foldl_cons,
      List.foldl_nil]
    rw [ih (fun x hx => hl x (by simp [hx])) a, hd, Nat.ofDigits_cons, List.length_cons]
    have h48 : 48 + d - 48 = d := by omega
    rw [h48]
    ring

theorem pyStrNat_all_digits (n : ℕ) : ∀ c ∈ pyStrNat n, isDigitCh c = true := by
  intro c hc
  unfold pyStrNat at hc
  split at hc
  · simp at hc
    subst hc
    decide
  · rw [List.mem_reverse] at hc
    obtain ⟨d, hd, rfl⟩ := List.mem_map.1 hc
    exact (digitChar_props d (Nat.digits_lt_base (by norm_num) hd)).1

theorem pyStrNat_parse (n : ℕ) : parseDigits (pyStrNat n) = n := by
  unfold pyStrNat
  split
  · rename_i h0
    rw [h0]
    decide
  · unfold parseDigits
    rw [foldl_digits (Nat.digits 10 n) (fun d hd => Nat.digits_lt_base (by norm_num) hd) 0,
      Nat.ofDigits_digits]
    ring

theorem pyStrNat_len_le (n : ℕ) (hn : n < 100000000) : (pyStrNat n).length ≤ 8 := by
  unfold pyStrNat
  split
  · simp
  · rename_i h0
    rw [List.length_reverse, List.length_map,
      Nat.digits_len 10 n (by norm_num) h0]
    have h2 : Nat.log 10 n < 8 :=
      (Nat.lt_pow_iff_log_lt (by norm_num) h0).1 (by norm_num; exact hn)
    omega

theorem zfill8_len (s : List Char) (h : s.length ≤ 8) : (zfill 8 s).length = 8 := by
  simp [zfill]
  omega

theorem zfill8_digits (s : List Char) (h : ∀ c ∈ s, isDigitCh c = true) :
    ∀ c ∈ zfill 8 s, isDigitCh c = true := by
  intro c hc
  rcases List.mem_append.1 hc with h1 | h2
  · rw [List.eq_of_mem_replicate h1]
    decide
  · exact h c h2

theorem foldl_zero_digits : ∀ (k : ℕ),
    (List.replicate k '0').foldl (fun a c => a * 10 + (c.toNat - 48)) 0 = 0 := by
  intro k
  induction k with
  | zero => rfl
  | succ m ih => simpa [List.replicate_succ, List.foldl_cons] using ih

theorem parse_zfill (w : ℕ) (s : List Char) : parseDigits (zfill w s) = parseDigits s := by
  unfold zfill parseDigits
  rw [List.foldl_append, foldl_zero_digits]

theorem exists_eight (s : List Char) (h : s.length = 8) :
    ∃ c0 c1 c2 c3 c4 c5 c6 c7, s = [c0, c1, c2, c3, c4, c5, c6, c7] := by
  cases s with | nil => simp at h | cons c0 s =>
  cases s with | nil => simp at h | cons c1 s =>
  cases s with | nil => simp at h | cons c2 s =>
  cases s with | nil => simp at h | cons c3 s =>
  cases s with | nil => simp at h | cons c4 s =>
  cases s with | nil => simp at h | cons c5 s =>
  cases s with | nil => simp at h | cons c6 s =>
  cases s with | nil => simp at h | cons c7 s =>
  cases s with
  | nil => exact ⟨c0, c1, c2, c3, c4, c5, c6, c7, rfl⟩
  | cons c8 s => simp at h

theorem isDigitCh_ne_dash {c : Char} (h : isDigitCh c = true) : c ≠ '-' := by
  rintro rfl
  exact absurd h (by decide)

theorem isDigitCh_ne_plus {c : Char} (h : isDigitCh c = true) : c ≠ '+' := by
  rintro rfl
  exact absurd h (by decide)

theorem isDigitCh_ne_space {c : Char} (h : isDigitCh c = true) : c ≠ ' ' := by
  rintro rfl
  exact absurd h (by decide)

theorem stripSpaces_of_digits (s : List Char) (hne : s ≠ [])
    (h : ∀ c ∈ s, isDigitCh c = true) : stripSpaces s = s := by
  unfold stripSpaces
  have h1 : s.dropWhile (fun c => c = ' ') = s := by
    cases s with
    | nil => rfl
    | cons c cs =>
      rw [List.dropWhile_cons]
      rw [if_neg]
      simp only [decide_eq_true_eq]
      exact isDigitCh_ne_space (h c (by simp))
  rw [h1]
  have h2 : s.reverse.dropWhile (fun c => c = ' ') = s.reverse := by
    cases hr : s.reverse with
    | nil => rfl
    | cons c cs =>
      have hcs : c ∈ s := by
        rw [← List.mem_reverse, hr]
        simp
      rw [List.dropWhile_cons, if_neg]
      simp only [decide_eq_true_eq]
      exact isDigitCh_ne_space (h c hcs)
  rw [h2, List.reverse_reverse]

theorem pyInt_digits (s : List Char) (hne : s ≠ []) (h : ∀ c ∈ s, isDigitCh c = true) :
    pyInt s = some (parseDigits s : ℤ) := by
  unfold pyInt
  rw [stripSpaces_of_digits s hne h]
  cases s with
  | nil => exact absurd rfl hne
  | cons c0 s2 =>
    have hc0 := h c0 (by simp)
    simp only [if_neg (isDigitCh_ne_dash hc0), if_neg (isDigitCh_ne_plus hc0)]
    rw [if_pos ⟨by simp, by simpa [List.all_eq_true] using h⟩]
    simp

/-- C10: for every `n < 100 000 000` that `tipid_from_int` formats as a TIPID
string `t`, `t` passes `is_tipid` and `tipid_to_int t` parses back to `n` —
the integer-to-TIPID and TIPID-to-integer conversions round-trip. -/
theorem tipid_roundtrip (n : ℕ) (hn : n < 100000000) (t : List Char)
    (ht : tipid_from_int n = some t) :
    is_tipid t = true ∧ tipid_to_int t = some (n : ℤ) := by
  have hlen : (zfill 8 (pyStrNat n)).length = 8 := zfill8_len _ (pyStrNat_len_le n hn)
  have hdig : ∀ c ∈ zfill 8 (pyStrNat n), isDigitCh c = true :=
    zfill8_digits _ (pyStrNat_all_digits n)
  have hparse : parseDigits (zfill 8 (pyStrNat n)) = n := by
    rw [parse_zfill, pyStrNat_parse]
  obtain ⟨c0, c1, c2, c3, c4, c5, c6, c7, hceq⟩ := exists_eight _ hlen
  have htip : is_tipid ([c0, c1] ++ '-' :: ([c2, c3] ++ '-' :: [c4, c5, c6, c7])) = true ∧
      t = [c0, c1] ++ '-' :: ([c2, c3] ++ '-' :: [c4, c5, c6, c7]) := by
    unfold tipid_from_int at ht
    rw [hceq] at ht
    by_cases hit : is_tipid ([c0, c1] ++ '-' :: ([c2, c3] ++ '-' :: [c4, c5, c6, c7])) = true
    · refine ⟨hit, ?_⟩
      rw [if_pos (by exact hit)] at ht
      exact (Option.some.injEq .. ▸ ht).symm
    · rw [if_neg (by exact hit)] at ht
      exact absurd ht (by simp)
  obtain ⟨htip1, htt⟩ := htip
  subst htt
  refine ⟨htip1, ?_⟩
  unfold tipid_to_int
  rw [if_pos htip1]
  have hd : ∀ i ∈ [c0, c1, c2, c3, c4, c5, c6, c7], isDigitCh i = true := by
    rw [← hceq]
    exact hdig
  have hfilter : ([c0, c1] ++ '-' :: ([c2, c3] ++ '-' :: [c4, c5, c6, c7])).filter
      (fun c => c ≠ '-') = [c0, c1, c2, c3, c4, c5, c6, c7] := by
    have e0 := isDigitCh_ne_dash (hd c0 (by simp))
    have e1 := isDigitCh_ne_dash (hd c1 (by simp))
    have e2 := isDigitCh_ne_dash (hd c2 (by simp))
    have e3 := isDigitCh_ne_dash (hd c3 (by simp))
    have e4 := isDigitCh_ne_dash (hd c4 (by simp))
    have e5 := isDigitCh_ne_dash (hd c5 (by simp))
    have e6 := isDigitCh_ne_dash (hd c6 (by simp))
    have e7 := isDigitCh_ne_dash (hd c7 (by simp))
    show List.filter _ (c0 :: c1 :: '-' :: c2 :: c3 :: '-' :: c4 :: c5 :: c6 :: c7 :: []) = _
    rw [List.filter_cons_of_pos (by simpa using e0),
      List.filter_cons_of_pos (by simpa using e1),
      List.filter_cons_of_neg (by simp),
      List.filter_cons_of_pos (by simpa using e2),
      List.filter_cons_of_pos (by simpa using e3),
      List.filter_cons_of_neg (by simp),
      List.filter_cons_of_pos (by simpa using e4),
      List.filter_cons_of_pos (by simpa using e5),
      List.filter_cons_of_pos (by simpa using e6),
      List.filter_cons_of_pos (by simpa using e7),
      List.filter_nil]
  rw [hfilter, ← hceq, pyInt_digits _ (by rw [hceq]; simp) hdig, hparse]


/-- C10 witness: `12345678` formats to `12-34-5678`, which `is_tipid` accepts
and `tipid_to_int` parses back to `12345678`. -/
theorem tipid_roundtrip_witness :
    (12345678 < 100000000) ∧
      tipid_from_int 12345678 = some ['1', '2', '-', '3', '4', '-', '5', '6', '7', '8'] ∧
      (is_tipid ['1', '2', '-', '3', '4', '-', '5', '6', '7', '8'] = true ∧
        tipid_to_int ['1', '2', '-', '3', '4', '-', '5', '6', '7', '8'] =
          some (12345678 : ℤ)) := by
  have hds : Nat.digits 10 12345678 = [8, 7, 6, 5, 4, 3, 2, 1] := by
    norm_num [Nat.digits_def']
  have hstr : pyStrNat 12345678 = ['1', '2', '3', '4', '5', '6', '7', '8'] := by
    rw [pyStrNat, if_neg (by norm_num), hds]
    rfl
  have hfrom : tipid_from_int 12345678 =
      some ['1', '2', '-', '3', '4', '-', '5', '6', '7', '8'] := by
    simp only [tipid_from_int, hstr]
    decide
  exact ⟨by norm_num, hfrom, tipid_roundtrip 12345678 (by norm_num) _ hfrom⟩


/-! ### Queue lemmas -/

theorem entryLE_cost {a b : Entry} (h : entryLE a b = true) : a.cost ≤ b.cost := by
  unfold entryLE at h
  simp only [Bool.or_eq_true, Bool.and_eq_true, decide_eq_true_eq, beq_iff_eq] at h
  rcases h with h | ⟨h1, _⟩
  · exact le_of_lt h
  · exact le_of_eq h1

theorem entryLE_total {a b : Entry} (h : entryLE a b = false) : b.cost ≤ a.cost := by
  unfold entryLE at h
  simp only [Bool.or_eq_false_iff, decide_eq_false_iff_not] at h
  exact le_of_not_lt h.1

theorem minEntry_mem (a : Entry) (l : List Entry) : minEntry a l ∈ a :: l := by
  induction l generalizing a with
  | nil => simp [minEntry]
  | cons x xs ih =>
    simp only [minEntry]
    split
    · have := ih a
      simp only [List.mem_cons] at this ⊢
      tauto
    · have := ih x
      simp only [List.mem_cons] at this ⊢
      tauto

theorem minEntry_min_cost : ∀ (xs : List Entry) (a x : Entry), x ∈ a :: xs →
    (minEntry a xs).cost ≤ x.cost := by
  intro xs
  induction xs with
  | nil =>
    intro a x hx
    simp at hx
    subst hx
    exact le_refl _
  | cons y ys ih =>
    intro a x hx
    simp only [minEntry]
    split
    · rename_i hle
      rcases List.mem_cons.1 hx with heq | hx2
      · rw [heq]
        exact ih a a (by simp)
      · rcases List.mem_cons.1 hx2 with heq2 | hx3
        · rw [heq2]
          exact le_trans (ih a a (by simp)) (entryLE_cost hle)
        · exact ih a x (by simp [hx3])
    · rename_i hle
      have hya : (minEntry y ys).cost ≤ a.cost := by
        have h1 : (minEntry y ys).cost ≤ y.cost := ih y y (by simp)
        have h2 : y.cost ≤ a.cost := entryLE_total (by simpa using hle)
        linarith
      rcases List.mem_cons.1 hx with heq | hx2
      · rw [heq]
        exact hya
      · exact ih y x hx2

theorem popMin_perm {l : List Entry} {ent : Entry} {rest : List Entry}
    (h : popMin l = some (ent, rest)) : l.Perm (ent :: rest) := by
  cases l with
  | nil => simp [popMin] at h
  | cons e es =>
    simp only [popMin, Option.some.injEq, Prod.mk.injEq] at h
    obtain ⟨h1, h2⟩ := h
    subst h1
    subst h2
    exact List.perm_cons_erase (minEntry_mem e es)

theorem popMin_min {l : List Entry} {ent : Entry} {rest : List Entry}
    (h : popMin l = some (ent, rest)) : ∀ x ∈ l, ent.cost ≤ x.cost := by
  cases l with
  | nil => simp [popMin] at h
  | cons e es =>
    simp only [popMin, Option.some.injEq, Prod.mk.injEq] at h
    obtain ⟨h1, h2⟩ := h
    subst h1
    exact fun x hx => minEntry_min_cost es e x hx

theorem popMin_mem_iff {l : List Entry} {ent : Entry} {rest : List Entry}
    (h : popMin l = some (ent, rest)) (x : Entry) : x ∈ l ↔ x = ent ∨ x ∈ rest := by
  rw [(popMin_perm h).mem_iff]
  simp

/-! ### Path lemmas -/

theorem mem_of_lookup {β : Type _} {l : List (ℕ × β)} {a : ℕ} {b : β}
    (h : List.lookup a l = some b) : (a, b) ∈ l := by
  induction l with
  | nil => simp [List.lookup] at h
  | cons p ps ih =>
    obtain ⟨k, v⟩ := p
    rw [List.lookup_cons] at h
    by_cases hak : a = k
    · subst hak
      simp at h
      subst h
      exact List.mem_cons_self _ _
    · rw [beq_false_of_ne hak] at h
      exact List.mem_cons_of_mem _ (ih h)

theorem edgeCost_nonneg {g : Graph} (hnn : NonnegGraph g) {a b : ℕ} {c : ℚ}
    (h : edgeCost g a b = some c) : 0 ≤ c := by
  unfold edgeCost at h
  cases hl : List.lookup a g with
  | none => rw [hl] at h; simp at h
  | some nbrs =>
    rw [hl] at h
    exact hnn (a, nbrs) (mem_of_lookup hl) (b, c) (mem_of_lookup h)

theorem pathCost_nonneg {g : Graph} (hnn : NonnegGraph g) :
    ∀ (p : List ℕ) (c : ℚ), pathCost g p = some c → 0 ≤ c := by
  intro p
  induction p with
  | nil => intro c hc; simp [pathCost] at hc
  | cons a rest ih =>
    cases rest with
    | nil =>
      intro c hc
      simp [pathCost] at hc
      subst hc
      exact le_refl 0
    | cons b rest2 =>
      intro c hc
      unfold pathCost at hc
      cases hab : edgeCost g a b with
      | none => rw [hab] at hc; simp at hc
      | some cab =>
        rw [hab] at hc
        cases hcr : pathCost g (b :: rest2) with
        | none => rw [hcr] at hc; simp at hc
        | some cr =>
          rw [hcr] at hc
          simp at hc
          have h1 := edgeCost_nonneg hnn hab
          have h2 := ih cr hcr
          linarith [hc]

theorem validPath_single (g : Graph) (s : ℕ) : ValidPath g s s [s] 0 := ⟨rfl, rfl, rfl⟩

theorem validPath_head {g : Graph} {s u : ℕ} {p : List ℕ} {c : ℚ}
    (h : ValidPath g s u p c) : ∃ rest, p = s :: rest := by
  obtain ⟨h1, _, _⟩ := h
  cases p with
  | nil => simp at h1
  | cons a r =>
    simp at h1
    exact ⟨r, by rw [h1]⟩

theorem pathCost_append_edge (g : Graph) :
    ∀ (p : List ℕ) (u w : ℕ) (c cw : ℚ), p.getLast? = some u →
    pathCost g p = some c → edgeCost g u w = some cw →
    pathCost g (p ++ [w]) = some (c + cw) := by
  intro p
  induction p with
  | nil => intro u w c cw hl _ _; simp at hl
  | cons a rest ih =>
    intro u w c cw hl hc he
    cases rest with
    | nil =>
      have hau : a = u := by simpa using hl
      subst hau
      simp [pathCost] at hc
      subst hc
      show pathCost g (a :: [w]) = some (0 + cw)
      unfold pathCost
      rw [he]
      show some (cw + 0) = some (0 + cw)
      congr 1
      ring
    | cons b rest2 =>
      unfold pathCost at hc
      cases hab : edgeCost g a b with
      | none => rw [hab] at hc; simp at hc
      | some cab =>
        rw [hab] at hc
        cases hcr : pathCost g (b :: rest2) with
        | none => rw [hcr] at hc; simp at hc
        | some cr =>
          rw [hcr] at hc
          simp at hc
          have hl2 : (b :: rest2).getLast? = some u := by
            rw [← hl, List.getLast?_cons_cons]
          have hrec := ih u w cr cw hl2 hcr he
          show pathCost g (a :: b :: (rest2 ++ [w])) = some (c + cw)
          unfold pathCost
          rw [hab]
          have : pathCost g (b :: (rest2 ++ [w])) = some (cr + cw) := by
            rw [show b :: (rest2 ++ [w]) = (b :: rest2) ++ [w] from rfl]
            exact hrec
          rw [this, ← hc]
          ring_nf

theorem validPath_append_edge {g : Graph} {s u : ℕ} {p : List ℕ} {c : ℚ}
    (h : ValidPath g s u p c) {w : ℕ} {cw : ℚ} (he : edgeCost g u w = some cw) :
    ValidPath g s w (p ++ [w]) (c + cw) := by
  obtain ⟨h1, h2, h3⟩ := h
  refine ⟨?_, ?_, pathCost_append_edge g p u w c cw h2 h3 he⟩
  · cases p with
    | nil => simp at h1
    | cons a r => simpa using h1
  · simp

theorem validPath_cons_cons {g : Graph} {v w u : ℕ} {rest : List ℕ} {c : ℚ}
    (h : ValidPath g v u (v :: w :: rest) c) :
    ∃ cw cr, edgeCost g v w = some cw ∧ ValidPath g w u (w :: rest) cr ∧ c = cw + cr := by
  obtain ⟨_, h2, h3⟩ := h
  unfold pathCost at h3
  cases hab : edgeCost g v w with
  | none => rw [hab] at h3; simp at h3
  | some cab =>
    rw [hab] at h3
    cases hcr : pathCost g (w :: rest) with
    | none => rw [hcr] at h3; simp at h3
    | some cr =>
      rw [hcr] at h3
      simp at h3
      refine ⟨cab, cr, rfl, ⟨rfl, ?_, hcr⟩, by linarith [h3]⟩
      · rw [← h2, List.getLast?_cons_cons]


/-! ### The Dijkstra loop invariant -/

theorem inv_init (g : Graph) (s : ℕ) : InvD g s [⟨0, s, []⟩] [] (fun _ => 0) := by
  constructor
  · intro v hv
    simp at hv
  · intro v hv
    simp at hv
  · intro ent hent
    simp at hent
    subst hent
    exact validPath_single g s
  · exact Or.inr ⟨⟨0, s, []⟩, by simp, rfl, le_refl 0⟩
  · intro ent _ h
    simp at h
  · intro v hv
    simp at hv

theorem frontier_aux {g : Graph} (hnn : NonnegGraph g) {s : ℕ} {queue : List Entry}
    {seen : List ℕ} {D : ℕ → ℚ} (inv : InvD g s queue seen D) :
    ∀ (p : List ℕ) (v u : ℕ) (cpre crest : ℚ), v ∈ seen → D v ≤ cpre →
    ValidPath g v u p crest → u ∉ seen →
    ∃ ent ∈ queue, ent.cost ≤ cpre + crest := by
  intro p
  induction p with
  | nil =>
    intro v u cpre crest _ _ hvp _
    obtain ⟨h1, _, _⟩ := hvp
    simp at h1
  | cons a rest ih =>
    intro v u cpre crest hv hD hvp hu
    obtain ⟨rest2, hpe⟩ := validPath_head hvp
    have hav : a = v := (List.cons.injEq .. ▸ hpe).1
    subst hav
    cases rest with
    | nil =>
      obtain ⟨_, h2, _⟩ := hvp
      simp at h2
      exact absurd hv (h2 ▸ hu)
    | cons w rest3 =>
      obtain ⟨cw, cr, hedge, hvp2, hcsum⟩ := validPath_cons_cons hvp
      have hedge2 := hedge
      unfold edgeCost at hedge2
      cases hlv : List.lookup a g with
      | none => rw [hlv] at hedge2; simp at hedge2
      | some nbrs =>
        rw [hlv] at hedge2
        have hwmem : (w, cw) ∈ nbrs := mem_of_lookup hedge2
        rcases inv.relaxed a hv nbrs hlv (w, cw) hwmem with ⟨hws, hDw⟩ | ⟨ent, hente, _, hcost⟩
        · obtain ⟨ent, h1, h2⟩ := ih w u (cpre + cw) cr hws (by linarith) hvp2 hu
          exact ⟨ent, h1, by linarith⟩
        · have hcr0 : 0 ≤ cr := pathCost_nonneg hnn _ cr hvp2.2.2
          exact ⟨ent, hente, by linarith⟩

theorem frontier_entry {g : Graph} (hnn : NonnegGraph g) {s : ℕ} {queue : List Entry}
    {seen : List ℕ} {D : ℕ → ℚ} (inv : InvD g s queue seen D)
    {u : ℕ} {p : List ℕ} {c : ℚ} (hu : u ∉ seen) (hvp : ValidPath g s u p c) :
    ∃ ent ∈ queue, ent.cost ≤ c := by
  by_cases hs : s ∈ seen
  · have hDs : D s ≤ 0 := inv.opt s hs [s] 0 (validPath_single g s)
    obtain ⟨ent, h1, h2⟩ := frontier_aux hnn inv p s u 0 c hs hDs hvp hu
    exact ⟨ent, h1, by linarith⟩
  · rcases inv.startOk with h | ⟨ent, h1, _, h3⟩
    · exact absurd h hs
    · have hc0 : 0 ≤ c := pathCost_nonneg hnn p c hvp.2.2
      exact ⟨ent, h1, by linarith⟩

theorem popped_opt {g : Graph} (hnn : NonnegGraph g) {s : ℕ} {queue : List Entry}
    {seen : List ℕ} {D : ℕ → ℚ} (inv : InvD g s queue seen D)
    {ent : Entry} {rest : List Entry} (hq : popMin queue = some (ent, rest))
    (hs : ent.node ∉ seen) :
    ∀ p c, ValidPath g s ent.node p c → ent.cost ≤ c := by
  intro p c hvp
  obtain ⟨w, hw, hwc⟩ := frontier_entry hnn inv hs hvp
  exact le_trans (popMin_min hq w hw) hwc

theorem inv_skip {g : Graph} {s : ℕ} {queue : List Entry} {seen : List ℕ} {D : ℕ → ℚ}
    {ent : Entry} {rest : List Entry} (inv : InvD g s queue seen D)
    (hq : popMin queue = some (ent, rest)) (hs : ent.node ∈ seen) :
    InvD g s rest seen D := by
  have hmem : ∀ x ∈ rest, x ∈ queue := fun x hx => (popMin_mem_iff hq x).2 (Or.inr hx)
  have hpop : ent ∈ queue := (popMin_mem_iff hq ent).2 (Or.inl rfl)
  constructor
  · exact inv.opt
  · intro v hv nbrs hl bc hbc
    rcases inv.relaxed v hv nbrs hl bc hbc with h | ⟨w, hw, hn, hc⟩
    · exact Or.inl h
    · rcases (popMin_mem_iff hq w).1 hw with heq | hw2
      · subst heq
        left
        refine ⟨hn ▸ hs, ?_⟩
        have h2 := inv.seenLeQ w hpop hs
        rw [← hn]
        linarith
      · exact Or.inr ⟨w, hw2, hn, hc⟩
  · exact fun x hx => inv.soundQ x (hmem x hx)
  · rcases inv.startOk with h | ⟨w, hw, hn, hc⟩
    · exact Or.inl h
    · rcases (popMin_mem_iff hq w).1 hw with heq | hw2
      · exact Or.inl (by rw [← hn, heq]; exact hs)
      · exact Or.inr ⟨w, hw2, hn, hc⟩
  · exact fun x hx h => inv.seenLeQ x (hmem x hx) h
  · exact fun v hv x hx => inv.allSeenLe v hv x (hmem x hx)

theorem inv_visit {g : Graph} (hwf : WFGraph g) (hnn : NonnegGraph g) {s : ℕ}
    {queue : List Entry} {seen : List ℕ} {D : ℕ → ℚ} {ent : Entry} {rest : List Entry}
    (inv : InvD g s queue seen D) (hq : popMin queue = some (ent, rest))
    (hs : ent.node ∉ seen) (pushes : List Entry)
    (hpush : pushes = match List.lookup ent.node g with
      | none => []
      | some nbrs => nbrs.map (fun bc => ⟨ent.cost + bc.2, bc.1, ent.path ++ [ent.node]⟩)) :
    InvD g s (rest ++ pushes) (ent.node :: seen) (updF D ent.node ent.cost) := by
  have hmem : ∀ x ∈ rest, x ∈ queue := fun x hx => (popMin_mem_iff hq x).2 (Or.inr hx)
  have hpop : ent ∈ queue := (popMin_mem_iff hq ent).2 (Or.inl rfl)
  have hDn : updF D ent.node ent.cost ent.node = ent.cost := by simp [updF]
  have hDv : ∀ v, v ≠ ent.node → updF D ent.node ent.cost v = D v := by
    intro v hv
    simp [updF, hv]
  have hvne : ∀ v ∈ seen, v ≠ ent.node := fun v hv hvn => hs (hvn ▸ hv)
  have hoptn := popped_opt hnn inv hq hs
  have hqmin := popMin_min hq
  have hpmem : ∀ x ∈ pushes, ∃ nbrs bc, List.lookup ent.node g = some nbrs ∧ bc ∈ nbrs ∧
      x = ⟨ent.cost + bc.2, bc.1, ent.path ++ [ent.node]⟩ := by
    intro x hx
    rw [hpush] at hx
    cases hl : List.lookup ent.node g with
    | none => rw [hl] at hx; simp at hx
    | some nbrs =>
      rw [hl] at hx
      obtain ⟨bc, hbc, hxe⟩ := List.mem_map.1 hx
      exact ⟨nbrs, bc, rfl, hbc, hxe.symm⟩
  have hpnn : ∀ x ∈ pushes, ent.cost ≤ x.cost := by
    intro x hx
    obtain ⟨nbrs, bc, hl, hbc, hxe⟩ := hpmem x hx
    have h0 : 0 ≤ bc.2 := hnn (ent.node, nbrs) (mem_of_lookup hl) bc hbc
    rw [hxe]
    simp only []
    linarith
  constructor
  · intro v hv p c hvp
    rcases List.mem_cons.1 hv with heq | hv2
    · subst heq
      rw [hDn]
      exact hoptn p c hvp
    · rw [hDv v (hvne v hv2)]
      exact inv.opt v hv2 p c hvp
  · intro v hv nbrs hl bc hbc
    rcases List.mem_cons.1 hv with heq | hv2
    · subst heq
      right
      refine ⟨⟨ent.cost + bc.2, bc.1, ent.path ++ [ent.node]⟩, ?_, rfl, ?_⟩
      · apply List.mem_append_right
        rw [hpush, hl]
        exact List.mem_map.2 ⟨bc, hbc, rfl⟩
      · rw [hDn]
    · rcases inv.relaxed v hv2 nbrs hl bc hbc with ⟨hws, hDw⟩ | ⟨w, hw, hn, hc⟩
      · left
        refine ⟨List.mem_cons_of_mem _ hws, ?_⟩
        rw [hDv bc.1 (hvne bc.1 hws), hDv v (hvne v hv2)]
        exact hDw
      · rcases (popMin_mem_iff hq w).1 hw with heq | hw2
        · subst heq
          left
          refine ⟨hn ▸ List.mem_cons_self _ _, ?_⟩
          rw [← hn, hDn, hDv v (hvne v hv2)]
          exact hc
        · exact Or.inr ⟨w, List.mem_append_left _ hw2, hn,
            by rw [hDv v (hvne v hv2)]; exact hc⟩
  · intro x hx
    rcases List.mem_append.1 hx with hx1 | hx2
    · exact inv.soundQ x (hmem x hx1)
    · obtain ⟨nbrs, bc, hl, hbc, hxe⟩ := hpmem x hx2
      have hvp := inv.soundQ ent hpop
      have hedge : edgeCost g ent.node bc.1 = some bc.2 := by
        unfold edgeCost
        rw [hl]
        exact lookup_of_mem_nodup (hwf.2 (ent.node, nbrs) (mem_of_lookup hl))
          (by rw [Prod.mk.eta]; exact hbc)
      rw [hxe]
      exact validPath_append_edge hvp hedge
  · rcases inv.startOk with h | ⟨w, hw, hn, hc⟩
    · exact Or.inl (List.mem_cons_of_mem _ h)
    · rcases (popMin_mem_iff hq w).1 hw with heq | hw2
      · left
        rw [← hn, heq]
        exact List.mem_cons_self _ _
      · exact Or.inr ⟨w, List.mem_append_left _ hw2, hn, hc⟩
  · intro x hx hxs
    rcases List.mem_append.1 hx with hx1 | hx2
    · by_cases hxn : x.node = ent.node
      · rw [hxn, hDn]
        exact hqmin x (hmem x hx1)
      · rcases List.mem_cons.1 hxs with heq | hxs2
        · exact absurd heq hxn
        · rw [hDv x.node hxn]
          exact inv.seenLeQ x (hmem x hx1) hxs2
    · obtain ⟨nbrs, bc, hl, hbc, hxe⟩ := hpmem x hx2
      have h0 : 0 ≤ bc.2 := hnn (ent.node, nbrs) (mem_of_lookup hl) bc hbc
      by_cases hxn : x.node = ent.node
      · rw [hxn, hDn, hxe]
        simp only []
        linarith
      · rcases List.mem_cons.1 hxs with heq | hxs2
        · exact absurd heq hxn
        · rw [hDv x.node hxn]
          have h1 : D x.node ≤ ent.cost := inv.allSeenLe x.node hxs2 ent hpop
          rw [hxe]
          simp only []
          rw [hxe] at hxn
          simp only [] at hxn
          rw [hxe] at hxs2
          simp only [] at hxs2
          have h2 : D bc.1 ≤ ent.cost := inv.allSeenLe bc.1 hxs2 ent hpop
          linarith
  · intro v hv x hx
    rcases List.mem_cons.1 hv with heq | hv2
    · subst heq
      rw [hDn]
      rcases List.mem_append.1 hx with hx1 | hx2
      · exact hqmin x (hmem x hx1)
      · exact hpnn x hx2
    · rw [hDv v (hvne v hv2)]
      rcases List.mem_append.1 hx with hx1 | hx2
      · exact inv.allSeenLe v hv2 x (hmem x hx1)
      · have h1 : D v ≤ ent.cost := inv.allSeenLe v hv2 ent hpop
        have h2 := hpnn x hx2
        linarith

theorem exhausted_unreachable {g : Graph} (hnn : NonnegGraph g) {s : ℕ} {seen : List ℕ}
    {D : ℕ → ℚ} (inv : InvD g s [] seen D) {u : ℕ} (hu : u ∉ seen) :
    ¬ Reachable g s u := by
  rintro ⟨p, c, hvp⟩
  obtain ⟨ent, hent, _⟩ := frontier_entry hnn inv hu hvp
  simp at hent


/-- Master specification of the search loop: under the invariant, an `ok`
result is a minimal-cost valid path to `e`, and a queue-exhausted error means
`e` is unreachable from `s`. -/
theorem dijkstraLoop_spec (g : Graph) (s e : ℕ) (hwf : WFGraph g) (hnn : NonnegGraph g) :
    ∀ (queue : List Entry) (seen : List ℕ), Inv g s queue seen → e ∉ seen →
    ((∀ c p, (dijkstraLoop g e queue seen).1 = .ok (c, p) →
        ValidPath g s e p c ∧ ∀ p2 c2, ValidPath g s e p2 c2 → c ≤ c2) ∧
      ((dijkstraLoop g e queue seen).1 = .error .queueExhausted → ¬ Reachable g s e)) := by
  intro queue seen
  induction queue, seen using dijkstraLoop.induct g e with
  | case1 queue seen hq =>
    intro hinv he
    rw [dijkstraLoop_pop_none hq]
    refine ⟨fun c p h => by simp at h, fun _ => ?_⟩
    obtain ⟨D, hD⟩ := hinv
    have hqe : queue = [] := by
      cases queue with
      | nil => rfl
      | cons x xs => simp [popMin] at hq
    subst hqe
    exact exhausted_unreachable hnn hD he
  | case2 queue seen ent rest hq hs ih =>
    intro hinv he
    rw [dijkstraLoop_skip hq hs]
    obtain ⟨D, hD⟩ := hinv
    exact ih ⟨D, inv_skip hD hq hs⟩ he
  | case3 queue seen ent rest hq hs hee =>
    intro hinv he
    rw [dijkstraLoop_found hq hs hee]
    obtain ⟨D, hD⟩ := hinv
    refine ⟨?_, fun h => by simp at h⟩
    intro c p h
    simp only [Except.ok.injEq, Prod.mk.injEq] at h
    obtain ⟨hc, hp⟩ := h
    subst hc
    subst hp
    constructor
    · exact hee ▸ hD.soundQ ent ((popMin_mem_iff hq ent).2 (Or.inl rfl))
    · intro p2 c2 hvp2
      exact popped_opt hnn hD hq hs p2 c2 (by rw [hee]; exact hvp2)
  | case4 queue seen ent rest hq hs hne hl ih =>
    intro hinv he
    rw [dijkstraLoop_expand_none hq hs hne hl]
    obtain ⟨D, hD⟩ := hinv
    have hD2 := inv_visit hwf hnn hD hq hs [] (by rw [hl])
    rw [List.append_nil] at hD2
    refine ih ⟨_, hD2⟩ ?_
    intro hmem
    rcases List.mem_cons.1 hmem with heq | h2
    · exact hne heq.symm
    · exact he h2
  | case5 queue seen ent rest hq hs hne nbrs hl ih =>
    intro hinv he
    rw [dijkstraLoop_expand hq hs hne hl]
    obtain ⟨D, hD⟩ := hinv
    have hD2 := inv_visit hwf hnn hD hq hs
      (nbrs.map (fun bc => ⟨ent.cost + bc.2, bc.1, ent.path ++ [ent.node]⟩)) (by rw [hl])
    refine ih ⟨_, hD2⟩ ?_
    intro hmem
    rcases List.mem_cons.1 hmem with heq | h2
    · exact hne heq.symm
    · exact he h2

/-- C1: on a duplicate-key-free graph with non-negative edge costs, when `e`
is reachable from `s`, `find_shortest_path` terminates (it is a total
function here) with an `ok` result whose path runs from `s` to `e` through
graph edges, whose cost is the sum of the traversed edge costs, and whose
cost is minimal over all `s`-to-`e` paths; the graph comes back unchanged. -/
theorem find_shortest_path_correct (g : Graph) (s e : ℕ) (hwf : WFGraph g)
    (hnn : NonnegGraph g) (hreach : Reachable g s e) :
    ∃ c p, find_shortest_path g s e = (.ok (c, p), g) ∧ ValidPath g s e p c ∧
      ∀ p2 c2, ValidPath g s e p2 c2 → c ≤ c2 := by
  have hspec := dijkstraLoop_spec g s e hwf hnn [⟨0, s, []⟩] []
    ⟨fun _ => 0, inv_init g s⟩ (by simp)
  have hg := dijkstraLoop_graph g e [⟨0, s, []⟩] []
  cases hres : (dijkstraLoop g e [⟨0, s, []⟩] []).1 with
  | error err =>
    cases err
    exact absurd hreach (hspec.2 hres)
  | ok cp =>
    obtain ⟨c, p⟩ := cp
    obtain ⟨hvp, hmin⟩ := hspec.1 c p hres
    refine ⟨c, p, ?_, hvp, hmin⟩
    show dijkstraLoop g e [⟨0, s, []⟩] [] = _
    have hpair : dijkstraLoop g e [⟨0, s, []⟩] [] =
        ((dijkstraLoop g e [⟨0, s, []⟩] []).1, (dijkstraLoop g e [⟨0, s, []⟩] []).2) := rfl
    rw [hpair, hres, hg]

/-- C1 witness: the one-edge graph `{1: {2: 5}, 2: {}}` from node 1 to
node 2. -/
theorem find_shortest_path_correct_witness :
    WFGraph [(1, [(2, (5 : ℚ))]), (2, [])] ∧
      NonnegGraph [(1, [(2, (5 : ℚ))]), (2, [])] ∧
      Reachable [(1, [(2, (5 : ℚ))]), (2, [])] 1 2 ∧
      (∃ c p, find_shortest_path [(1, [(2, (5 : ℚ))]), (2, [])] 1 2 =
          (.ok (c, p), [(1, [(2, (5 : ℚ))]), (2, [])]) ∧
        ValidPath [(1, [(2, (5 : ℚ))]), (2, [])] 1 2 p c ∧
        ∀ p2 c2, ValidPath [(1, [(2, (5 : ℚ))]), (2, [])] 1 2 p2 c2 → c ≤ c2) := by
  have hwf : WFGraph [(1, [(2, (5 : ℚ))]), (2, [])] := by
    constructor
    · decide
    · intro p hp
      rcases List.mem_cons.1 hp with heq | hp2
      · rw [heq]; decide
      · rcases List.mem_cons.1 hp2 with heq2 | hp3
        · rw [heq2]; decide
        · simp at hp3
  have hnn : NonnegGraph [(1, [(2, (5 : ℚ))]), (2, [])] := by
    intro p hp bc hbc
    rcases List.mem_cons.1 hp with heq | hp2
    · rw [heq] at hbc
      simp at hbc
      rw [hbc]
      norm_num
    · rcases List.mem_cons.1 hp2 with heq2 | hp3
      · rw [heq2] at hbc; simp at hbc
      · simp at hp3
  have hre : Reachable [(1, [(2, (5 : ℚ))]), (2, [])] 1 2 :=
    ⟨[1, 2], 5, rfl, rfl, by norm_num [pathCost, edgeCost, List.lookup]⟩
  exact ⟨hwf, hnn, hre, find_shortest_path_correct _ 1 2 hwf hnn hre⟩

end MHN
